import Mathlib

/-!
# FluxZero: the Fluid Tree Search controller (`fz_engine.cpp`)

A shallow embedding of `FluidTree` (node store, descent, ascent, accessors and the
binary persistence codec) together with theorems about it.

Conventions of the embedding

* An `int` is an `Int`; `IsInt x` says that `x` lies in the 32-bit range.  The two
  conversions the source performs between `int` and `size_t` are explicit:
  `size_t_of_int` (an `int` compared with `nodes.size()` or used as a vector index is
  converted modulo `2^64`) and `int_of_size_t` (`(int)nodes.size()` keeps the low 32
  bits, read as two's complement).
* `n.visit_count++` stores `int_wrap (visit_count + 1)`: the successor kept to 32 bits
  in two's complement.  Signed overflow is formally undefined in C++; the wrapped value,
  `-2147483648` after `2147483647`, is what the compiled code stores.
* A `double` is an abstract type `κ`; the arithmetic the controller itself performs on
  it (`0.0`, `0.5`, `+`, `<=`) is a parameter (`DoubleOps`), and so are the two foreign
  kernels `fz_calc_flow_probs` and `fz_update_conductivity` and the values `rand()`
  yields.
* `while` loops take a fuel argument counting loop iterations.
-/

namespace FluxZero

variable {κ : Type}

/-! ## Outcomes -/

/-- Result of running one operation of the controller. -/
inductive Outcome (α : Type) where
  /-- normal return -/
  | ok (a : α)
  /-- a `std::exception` left the function (`what()` is the message) -/
  | thrown (msg : String)
  /-- a vector was indexed outside its bounds with index `i` (undefined behaviour) -/
  | oob (i : Int)
  /-- a variable was used that a failed stream read left uninitialised -/
  | uninit
  /-- the loop had not finished when the fuel ran out -/
  | out_of_fuel
deriving DecidableEq

/-! ## Machine integers -/

/-- The value lies in the range of a 32-bit `int`. -/
def IsInt (x : Int) : Prop := -2147483648 ≤ x ∧ x < 2147483648

instance (x : Int) : Decidable (IsInt x) := by unfold IsInt; infer_instance

/-- Conversion `int → size_t` (64-bit, modular), applied by C++ when an `int` is
compared with `nodes.size()` or used as the index of `operator[]`. -/
def size_t_of_int (x : Int) : Nat := (x % 18446744073709551616).toNat

/-- Conversion `size_t → int`: the low 32 bits, read as two's complement. -/
def int_of_size_t (n : Nat) : Int := ((n : Int) + 2147483648) % 4294967296 - 2147483648

/-- The `int` that holds the mathematical value `x` kept to 32 bits in two's complement:
the value an `int` variable has after an arithmetic operation whose exact result is `x`. -/
def int_wrap (x : Int) : Int := (x + 2147483648) % 4294967296 - 2147483648

/-! ## Data model (`fz_engine.hpp`) -/

/-- The C++ `struct Node`, field for field. -/
structure Node (κ : Type) where
  id : Int
  visit_count : Int
  conductivity : κ
  children : List Int
  parent : Int
deriving DecidableEq

/-- The C++ `class FluidTree`: its only data member besides the mutex is `nodes`. -/
structure FluidTree (κ : Type) where
  nodes : List (Node κ)
deriving DecidableEq

/-- The arithmetic on `double` that the controller performs itself. -/
structure DoubleOps (κ : Type) where
  /-- the literal `0.0` (also the value of a value-initialised `double`) -/
  zero : κ
  /-- the literal `0.5` -/
  half : κ
  /-- the sum of `cum += probs[i]` -/
  add : κ → κ → κ
  /-- the comparison `r <= cum` -/
  le : κ → κ → Bool

/-- Exact rational arithmetic as an instance of the arithmetic on `double`. -/
def ratOps : DoubleOps ℚ := ⟨0, 1 / 2, fun a b => a + b, fun a b => decide (a ≤ b)⟩

namespace FluidTree

/-- The element `nodes[i]` for an `int` index `i`, `none` when the converted index is
outside the vector. -/
def node? (t : FluidTree κ) (i : Int) : Option (Node κ) := t.nodes[size_t_of_int i]?

/-- The id is a valid index of the store: `0 <= i < nodes.size()`. -/
def Valid (t : FluidTree κ) (i : Int) : Prop := 0 ≤ i ∧ i < (t.nodes.length : Int)

instance (t : FluidTree κ) (i : Int) : Decidable (t.Valid i) := by unfold Valid; infer_instance

/-- The number of nodes fits an `int`, as `(int)nodes.size()` presupposes. -/
def SizeOk (t : FluidTree κ) : Prop := t.nodes.length < 2147483648

instance (t : FluidTree κ) : Decidable t.SizeOk := by unfold SizeOk; infer_instance

/-- `FluidTree::FluidTree()`: the store holds the root `{0, 0, 0.5, {}, -1}`. -/
def construct (D : DoubleOps κ) : FluidTree κ := ⟨[⟨0, 0, D.half, [], -1⟩]⟩

/-- `FluidTree::create_node`: what the call returns or throws, and the tree after it. -/
def create_node (D : DoubleOps κ) (t : FluidTree κ) (parent_id : Int) :
    Outcome Int × FluidTree κ :=
  if parent_id ≥ int_of_size_t t.nodes.length then (.thrown "Parent ID out of bounds", t)
  else
    let id := int_of_size_t t.nodes.length
    (.ok id, ⟨t.nodes ++ [⟨id, 0, D.half, [], parent_id⟩]⟩)

/-- `FluidTree::add_child`: how the call ends, and the tree after it. -/
def add_child (t : FluidTree κ) (parent_id child_id : Int) : Outcome Unit × FluidTree κ :=
  if parent_id < 0 ∨ size_t_of_int parent_id ≥ t.nodes.length then
    (.thrown "Parent ID invalid", t)
  else if child_id < 0 ∨ size_t_of_int child_id ≥ t.nodes.length then
    (.thrown "Child ID invalid", t)
  else
    match t.node? parent_id with
    | none => (.oob parent_id, t)
    | some n =>
      (.ok (),
        ⟨t.nodes.set (size_t_of_int parent_id) { n with children := n.children ++ [child_id] }⟩)

/-- `FluidTree::get_visit_count`. -/
def get_visit_count (t : FluidTree κ) (node_id : Int) : Int :=
  if h : size_t_of_int node_id < t.nodes.length then
    (t.nodes.get ⟨size_t_of_int node_id, h⟩).visit_count
  else 0

/-- `FluidTree::get_conductivity`. -/
def get_conductivity (D : DoubleOps κ) (t : FluidTree κ) (node_id : Int) : κ :=
  if h : size_t_of_int node_id < t.nodes.length then
    (t.nodes.get ⟨size_t_of_int node_id, h⟩).conductivity
  else D.zero

/-- The `while(curr != -1)` loop of `backpropagate`, `fuel` iterations at most: how it
ends, and the store it leaves.  `U old reward lr` is the value `fz_update_conductivity`
stores in `new_val`. -/
def backpropagate_loop (U : κ → κ → κ → κ) (reward learning_rate : κ) :
    Nat → List (Node κ) → Int → Outcome Unit × List (Node κ)
  | 0, nodes, curr => if curr = -1 then (.ok (), nodes) else (.out_of_fuel, nodes)
  | fuel + 1, nodes, curr =>
    if curr = -1 then (.ok (), nodes)
    else
      match nodes[size_t_of_int curr]? with
      | none => (.oob curr, nodes)
      | some n =>
        let n1 : Node κ := { n with visit_count := int_wrap (n.visit_count + 1) }
        let n2 : Node κ := { n1 with conductivity := U n1.conductivity reward learning_rate }
        backpropagate_loop U reward learning_rate fuel
          (nodes.set (size_t_of_int curr) n2) n2.parent

/-- `FluidTree::backpropagate`: how the call ends, and the tree after it. -/
def backpropagate (U : κ → κ → κ → κ) (fuel : Nat) (t : FluidTree κ) (leaf_node : Int)
    (reward learning_rate : κ) : Outcome Unit × FluidTree κ :=
  let r := backpropagate_loop U reward learning_rate fuel t.nodes leaf_node
  (r.1, ⟨r.2⟩)

/-- The loop of `select_leaf` that fills `conds`: `conds[i] = nodes[n.children[i]].conductivity`
for the children given, in order. -/
def gather_conds (nodes : List (Node κ)) : List Int → Outcome (List κ)
  | [] => .ok []
  | c :: cs =>
    match nodes[size_t_of_int c]? with
    | none => .oob c
    | some m =>
      match gather_conds nodes cs with
      | .ok l => .ok (m.conductivity :: l)
      | e => e

/-- The sampling loop of `select_leaf`, `for(i; i<n_child; ++i)`, with `k` iterations
left, the loop variable at `i` and the running sum at `cum`; the value is `next_idx`
after the loop, which keeps its initial value `0` when the loop runs to its end. -/
def sample_loop (D : DoubleOps κ) (r : κ) (probs : List κ) : Nat → Nat → κ → Int
  | 0, _, _ => 0
  | k + 1, i, cum =>
    let cum1 := D.add cum (probs.getD i D.zero)
    if D.le r cum1 then (i : Int) else sample_loop D r probs k (i + 1) cum1

/-- One pass through the body of `while(true)` in `select_leaf` at `curr`, drawing `r`:
`.ok (true, id)` is `return id` (or `break`), `.ok (false, id)` is `curr = id` and the
next pass.  `P n conds expl` is the content `fz_calc_flow_probs` leaves in `probs`
(entries it does not supply keep the `0.0` the vector was created with). -/
def select_step (D : DoubleOps κ) (P : Int → List κ → κ → List κ) (exploration : κ)
    (nodes : List (Node κ)) (r : κ) (curr : Int) : Outcome (Bool × Int) :=
  if size_t_of_int curr ≥ nodes.length then .ok (true, curr)
  else
    match nodes[size_t_of_int curr]? with
    | none => .oob curr
    | some n =>
      if n.children = [] then .ok (true, curr)
      else
        let n_child : Int := int_of_size_t n.children.length
        if n_child < 0 then .thrown "cannot create std::vector larger than max_size()"
        else
          match gather_conds nodes (n.children.take n_child.toNat) with
          | .ok conds =>
            let probs := P n_child conds exploration
            let next_idx := sample_loop D r probs n_child.toNat 0 D.zero
            let next_idx := if next_idx ≥ n_child then n_child - 1 else next_idx
            match n.children[size_t_of_int next_idx]? with
            | none => .oob next_idx
            | some c => .ok (false, c)
          | .thrown msg => .thrown msg
          | .oob i => .oob i
          | .uninit => .uninit
          | .out_of_fuel => .out_of_fuel

/-- The `while(true)` loop of `select_leaf`: `fuel` passes at most, the pass numbered `k`
draws `draws k`. -/
def select_loop (D : DoubleOps κ) (P : Int → List κ → κ → List κ) (exploration : κ)
    (nodes : List (Node κ)) (draws : Nat → κ) : Nat → Nat → Int → Outcome Int
  | 0, _, _ => .out_of_fuel
  | fuel + 1, k, curr =>
    match select_step D P exploration nodes (draws k) curr with
    | .ok (true, id) => .ok id
    | .ok (false, id) => select_loop D P exploration nodes draws fuel (k + 1) id
    | .thrown msg => .thrown msg
    | .oob i => .oob i
    | .uninit => .uninit
    | .out_of_fuel => .out_of_fuel

/-- `FluidTree::select_leaf`; `draws k` is the value of `(double)rand() / RAND_MAX` at the
`k`-th draw of the call. -/
def select_leaf (D : DoubleOps κ) (P : Int → List κ → κ → List κ) (draws : Nat → κ)
    (fuel : Nat) (t : FluidTree κ) (start_node : Int) (exploration : κ) : Outcome Int :=
  if start_node < 0 ∨ size_t_of_int start_node ≥ t.nodes.length then
    .thrown "Start Node Invalid"
  else select_loop D P exploration t.nodes draws fuel 0 start_node

/-- The range-for loop of `get_best_child` over the children that are left, with the
current `best_id` and `max_visits`. -/
def best_loop (nodes : List (Node κ)) : List Int → Int → Int → Outcome Int
  | [], best_id, _ => .ok best_id
  | child_id :: rest, best_id, max_visits =>
    match nodes[size_t_of_int child_id]? with
    | none => .oob child_id
    | some m =>
      if m.visit_count > max_visits then best_loop nodes rest child_id m.visit_count
      else best_loop nodes rest best_id max_visits

/-- `FluidTree::get_best_child`. -/
def get_best_child (t : FluidTree κ) (node_id : Int) : Outcome Int :=
  if size_t_of_int node_id ≥ t.nodes.length then .ok (-1)
  else
    match t.node? node_id with
    | none => .oob node_id
    | some n =>
      if n.children = [] then .ok (-1)
      else best_loop t.nodes n.children (-1) (-1)

/-- The copy loop of `get_children`, `for(i; i<copy_len; ++i) out_buf[i] = n.children[i]`,
with `k` iterations left and the loop variable at `i`: how it ends, and the caller's
storage after it.  `buf` is the storage `out_buf` points to; a write past its end is a
fault. -/
def copy_loop (children : List Int) : Nat → Nat → List Int → Outcome Unit × List Int
  | 0, _, buf => (.ok (), buf)
  | k + 1, i, buf =>
    match children[i]? with
    | none => (.oob (i : Int), buf)
    | some c =>
      if i < buf.length then copy_loop children k (i + 1) (buf.set i c)
      else (.oob (i : Int), buf)

/-- `FluidTree::get_children`: what the call returns, and the caller's storage after it;
`out_buf` is `none` for a null pointer. -/
def get_children (t : FluidTree κ) (node_id : Int) (out_buf : Option (List Int))
    (max_len : Int) : Outcome Int × Option (List Int) :=
  if node_id < 0 ∨ size_t_of_int node_id ≥ t.nodes.length then (.ok (-1), out_buf)
  else
    match t.node? node_id with
    | none => (.oob node_id, out_buf)
    | some n =>
      let count : Int := int_of_size_t n.children.length
      match out_buf with
      | none => (.ok count, none)
      | some buf =>
        if max_len > 0 then
          let copy_len : Int := if count < max_len then count else max_len
          match copy_loop n.children copy_len.toNat 0 buf with
          | (.ok _, buf1) => (.ok count, some buf1)
          | (.thrown msg, buf1) => (.thrown msg, some buf1)
          | (.oob i, buf1) => (.oob i, some buf1)
          | (.uninit, buf1) => (.uninit, some buf1)
          | (.out_of_fuel, buf1) => (.out_of_fuel, some buf1)
        else (.ok count, some buf)

end FluidTree

/-! ## Persistence (`save_to_file`, `load_from_file`) -/

/-- One `char` of a file. -/
abbrev Byte := Fin 256

/-- The low eight bits of a number, as a byte. -/
def byte (n : Nat) : Byte := ⟨n % 256, Nat.mod_lt n (by decide)⟩

/-- The object representation of a `double`: the eight bytes `out.write((char*)&x, 8)`
writes and the value `in.read((char*)&x, 8)` leaves in `x` for eight given bytes.
Copying a `double` out and back in gives the same `double`. -/
structure DoubleRepr (κ : Type) where
  toBytes : κ → List Byte
  ofBytes : List Byte → κ
  size_toBytes : ∀ c, (toBytes c).length = 8
  ofBytes_toBytes : ∀ c, ofBytes (toBytes c) = c

/-- The `int` whose four bytes, least significant first, are given. -/
def int_of_bytes (b0 b1 b2 b3 : Byte) : Int :=
  let u : Nat := b0.val + 256 * b1.val + 65536 * b2.val + 16777216 * b3.val
  if u < 2147483648 then (u : Int) else (u : Int) - 4294967296

/-- `in.read((char*)&x, sizeof(int))`: the `int` read and the rest of the stream, `none`
when fewer than four bytes are left (then `x` stays uninitialised). -/
def read_int : List Byte → Option (Int × List Byte)
  | b0 :: b1 :: b2 :: b3 :: rest => some (int_of_bytes b0 b1 b2 b3, rest)
  | _ => none

/-- `in.read((char*)&x, sizeof(double))`, `none` when fewer than eight bytes are left. -/
def read_double (R : DoubleRepr κ) (inp : List Byte) : Option (κ × List Byte) :=
  if 8 ≤ inp.length then some (R.ofBytes (inp.take 8), inp.drop 8) else none

/-- The byte at offset `i` of what is left of the stream, `0` when the stream ends before it. -/
def byte_or_zero (inp : List Byte) (i : Nat) : Byte := inp.getD i 0

/-- `n.children.resize(k); in.read((char*)n.children.data(), k * sizeof(int))`: `k` ints
from the stream; where the stream ends early the zeros of `resize` remain. -/
def read_children : Nat → List Byte → List Int × List Byte
  | 0, inp => ([], inp)
  | k + 1, inp =>
    let c := int_of_bytes (byte_or_zero inp 0) (byte_or_zero inp 1) (byte_or_zero inp 2)
      (byte_or_zero inp 3)
    let r := read_children k (inp.drop 4)
    (c :: r.1, r.2)

/-- One pass through the body of the `for` loop of `load_from_file`: the node read and
the rest of the stream, `none` when a scalar field could not be read in full. -/
def read_node (R : DoubleRepr κ) (inp : List Byte) : Option (Node κ × List Byte) :=
  match read_int inp with
  | none => none
  | some (id, inp1) =>
    match read_int inp1 with
    | none => none
    | some (visit_count, inp2) =>
      match read_double R inp2 with
      | none => none
      | some (conductivity, inp3) =>
        match read_int inp3 with
        | none => none
        | some (parent, inp4) =>
          match read_int inp4 with
          | none => none
          | some (n_children, inp5) =>
            if n_children > 0 then
              let r := read_children n_children.toNat inp5
              some (⟨id, visit_count, conductivity, r.1, parent⟩, r.2)
            else some (⟨id, visit_count, conductivity, [], parent⟩, inp5)

/-- The `for(int i=0; i<count; ++i)` loop of `load_from_file` with `k` passes left. -/
def load_nodes (R : DoubleRepr κ) :
    Nat → List Byte → List (Node κ) → Outcome Unit × List (Node κ)
  | 0, _, nodes => (.ok (), nodes)
  | k + 1, inp, nodes =>
    match read_node R inp with
    | none => (.uninit, nodes)
    | some (n, rest) => load_nodes R k rest (nodes ++ [n])

/-- The test `magic[0]!='F' || magic[1]!='L' || ...` on what `in.read(magic, 4)` stored:
`some false` at the first byte that differs, `some true` when all four agree, `none`
when the file ends before a difference is found (the next `magic[i]` is uninitialised). -/
def check_magic : List Byte → List Byte → Option Bool
  | [], _ => some true
  | _ :: _, [] => none
  | e :: es, b :: bs => if b ≠ e then some false else check_magic es bs

/-- `FluidTree::load_from_file`: how the call ends, and the tree after it; `file` is the
content of the file, `none` when it cannot be opened. -/
def FluidTree.load_from_file (R : DoubleRepr κ) (file : Option (List Byte)) (t : FluidTree κ) :
    Outcome Unit × FluidTree κ :=
  match file with
  | none => (.ok (), t)
  | some inp =>
    match check_magic [byte 70, byte 76, byte 85, byte 88] inp with
    | none => (.uninit, t)
    | some false => (.ok (), t)
    | some true =>
      match read_int (inp.drop 4) with
      | none => (.uninit, ⟨[]⟩)
      | some (count, rest) =>
        let r := load_nodes R count.toNat rest []
        (r.1, ⟨r.2⟩)

/-! ## Vocabulary of the statements -/

namespace FluidTree

/-- The list is the parent chain of its head: every entry is a valid id, each entry but
the last has the next entry as its parent, and the parent of the last entry is the
sentinel `-1`. -/
def IsParentPath (t : FluidTree κ) : List Int → Prop
  | [] => False
  | [v] => t.Valid v ∧ ∃ n, t.nodes[v.toNat]? = some n ∧ n.parent = -1
  | v :: w :: rest =>
    t.Valid v ∧ (∃ n, t.nodes[v.toNat]? = some n ∧ n.parent = w) ∧ IsParentPath t (w :: rest)

/-- A node after one visit of the ascent: `visit_count` one more, `conductivity` replaced
by the update policy's value, the other fields as they were. -/
def visited (U : κ → κ → κ → κ) (reward learning_rate : κ) (n : Node κ) : Node κ :=
  ⟨n.id, n.visit_count + 1, U n.conductivity reward learning_rate, n.children, n.parent⟩

/-- The counter of the node can take one more visit without overflow: `visit_count` is an
`int` below `INT_MAX = 2147483647`. -/
def CanCount (n : Node κ) : Prop :=
  -2147483648 ≤ n.visit_count ∧ n.visit_count < 2147483647

/-- A tree of one node, the root, whose counter stands at `INT_MAX`. -/
def saturated_tree : FluidTree ℚ := ⟨[⟨0, 2147483647, 1 / 2, [], -1⟩]⟩

/-- The tree of one node, the root, after `k` visits that left its conductivity at `1/2`. -/
def counting_tree (k : Nat) : FluidTree ℚ := ⟨[⟨0, (k : Int), 1 / 2, [], -1⟩]⟩

/-- The sum of the visit counts of a store: the number of increments it has received in
all, as long as no counter has wrapped. -/
def total_visits (nodes : List (Node κ)) : Int := (nodes.map (fun n => n.visit_count)).sum

/-- Exponential smoothing toward the reward, `old + lr * (reward - old)`. -/
def smoothing (old reward lr : ℚ) : ℚ := old + lr * (reward - old)

/-- The tree of the concrete scenario: fresh tree, `create_node(0)` twice, then
`add_child(0,1)` and `add_child(0,2)`. -/
def scenario_tree : FluidTree ℚ :=
  (add_child (add_child (create_node ratOps (create_node ratOps (construct ratOps) 0).2 0).2
    0 1).2 0 2).2

/-- The running sum of the sampling loop after `i` additions: `0.0 + p[0] + ... + p[i-1]`,
added from the left as `cum += probs[j]` does, an entry missing from `probs` being `0.0`. -/
def cumulative (D : DoubleOps κ) (probs : List κ) : Nat → κ
  | 0 => D.zero
  | i + 1 => D.add (cumulative D probs i) (probs.getD i D.zero)

/-- The selection policy that returns `[1/2, 1/2]` whatever it is given. -/
def even_policy (_ : Int) (_ : List ℚ) (_ : ℚ) : List ℚ := [1 / 2, 1 / 2]

/-- A `double` taken to be its bit pattern, a number below `2^64`, stored least
significant byte first. -/
def bitsRepr : DoubleRepr (Fin 18446744073709551616) where
  toBytes c := (List.range 8).map (fun i => byte (c.val / 256 ^ i))
  ofBytes bs := Fin.ofNat (((List.range 8).map (fun i => (bs.getD i 0).val * 256 ^ i)).sum)
  size_toBytes := by intro c; simp
  ofBytes_toBytes := by
    intro c
    apply Fin.ext
    have h := c.isLt
    simp only [Fin.ofNat, List.range, List.range.loop, List.map, List.getD_cons_zero,
      List.getD_cons_succ, byte, List.sum_cons, List.sum_nil]
    omega

/-- A store of two nodes over bit patterns: the root, visited once, with child `1`; the
conductivities are the patterns of `0.5` (`0x3FE0000000000000`) and of `0.55`. -/
def stored_tree : FluidTree (Fin 18446744073709551616) :=
  ⟨[⟨0, 1, 4602678819172646912, [1], -1⟩, ⟨1, 1, 4603129179135383962, [], 0⟩]⟩

/-- The two foreign kernels a running controller is linked with, and its arithmetic. -/
structure Kernels (κ : Type) where
  /-- the arithmetic on `double` -/
  ops : DoubleOps κ
  /-- what `fz_calc_flow_probs(n, conds, expl, probs)` leaves in `probs` -/
  fz_calc_flow_probs : Int → List κ → κ → List κ
  /-- what `fz_update_conductivity(old, reward, lr, &new_val)` leaves in `new_val` -/
  fz_update_conductivity : κ → κ → κ → κ

/-- One call of a public operation of the controller, with its arguments; `draws` are
the values `rand()` yields during a `select_leaf`, `fuel` bounds the iterations of a
loop. -/
inductive Call (κ : Type) where
  | create_node (parent_id : Int)
  | add_child (parent_id child_id : Int)
  | select_leaf (draws : Nat → κ) (fuel : Nat) (start_node : Int) (exploration : κ)
  | backpropagate (fuel : Nat) (leaf_node : Int) (reward learning_rate : κ)
  | get_best_child (node_id : Int)
  | get_children (node_id : Int) (out_buf : Option (List Int)) (max_len : Int)

/-- The `int` arguments of the call are within the range of `int`. -/
def Call.WellTyped : Call κ → Prop
  | .create_node parent_id => IsInt parent_id
  | .add_child parent_id child_id => IsInt parent_id ∧ IsInt child_id
  | .select_leaf _ _ start_node _ => IsInt start_node
  | .backpropagate _ leaf_node _ _ => IsInt leaf_node
  | .get_best_child node_id => IsInt node_id
  | .get_children node_id _ max_len => IsInt node_id ∧ IsInt max_len

/-- The call is a `backpropagate`. -/
def Call.isBackpropagate : Call κ → Bool
  | .backpropagate _ _ _ _ => true
  | _ => false

/-- How a call ends, its return value forgotten. -/
def ended {α : Type} : Outcome α → Outcome Unit
  | .ok _ => .ok ()
  | .thrown msg => .thrown msg
  | .oob i => .oob i
  | .uninit => .uninit
  | .out_of_fuel => .out_of_fuel

/-- Running one call on a tree: how it ends, and the tree after it.  `select_leaf`,
`get_best_child` and `get_children` do not write to the store. -/
def run (E : Kernels κ) (t : FluidTree κ) : Call κ → Outcome Unit × FluidTree κ
  | .create_node parent_id =>
    (ended (create_node E.ops t parent_id).1, (create_node E.ops t parent_id).2)
  | .add_child parent_id child_id => add_child t parent_id child_id
  | .select_leaf draws fuel start_node exploration =>
    (ended (select_leaf E.ops E.fz_calc_flow_probs draws fuel t start_node exploration), t)
  | .backpropagate fuel leaf_node reward learning_rate =>
    backpropagate E.fz_update_conductivity fuel t leaf_node reward learning_rate
  | .get_best_child node_id => (ended (get_best_child t node_id), t)
  | .get_children node_id out_buf max_len =>
    (ended (get_children t node_id out_buf max_len).1, t)

/-- The states a controller can be in: the freshly constructed tree, and the tree after
any well-typed call, however it ends, on such a state. -/
inductive Reachable (E : Kernels κ) : FluidTree κ → Prop where
  | fresh : Reachable E (construct E.ops)
  | step (t : FluidTree κ) (c : Call κ) :
      Reachable E t → c.WellTyped → Reachable E (run E t c).2

/-- The states reached from the freshly constructed tree through calls that return
normally. -/
inductive ReachableOk (E : Kernels κ) : FluidTree κ → Prop where
  | fresh : ReachableOk E (construct E.ops)
  | step (t : FluidTree κ) (c : Call κ) :
      ReachableOk E t → c.WellTyped → (run E t c).1 = .ok () → ReachableOk E (run E t c).2

/-- Rational kernels: exponential smoothing and the even policy. -/
def ratKernels : Kernels ℚ := ⟨ratOps, even_policy, smoothing⟩

/-- A selection policy whose vector sums to less than one: `[1/2, 1/4]` whatever it is
given. -/
def short_policy (_ : Int) (_ : List ℚ) (_ : ℚ) : List ℚ := [1 / 2, 1 / 4]

/-- The store `t1` continues the store `t`: it has at least as many nodes, and at every
position of `t` it holds a node with the same id, parent and a visit count that is not
smaller. -/
def Continues (t t1 : FluidTree κ) : Prop :=
  t.nodes.length ≤ t1.nodes.length ∧
  ∀ (i : Nat) n, t.nodes[i]? = some n →
    ∃ n1, t1.nodes[i]? = some n1 ∧ n1.id = n.id ∧ n1.parent = n.parent ∧
      n.visit_count ≤ n1.visit_count

/-- A tree of four nodes: the root with children `1, 2, 3` in that order, visited 1, 5
and 5 times. -/
def visited_tree : FluidTree ℚ :=
  ⟨[⟨0, 11, 1 / 2, [1, 2, 3], -1⟩, ⟨1, 1, 1 / 2, [], 0⟩, ⟨2, 5, 1 / 2, [], 0⟩,
    ⟨3, 5, 1 / 2, [], 0⟩]⟩

end FluidTree

/-! ## Machine integers: facts -/

theorem size_t_of_int_nonneg {x : Int} (h0 : 0 ≤ x) (h1 : x < 18446744073709551616) :
    size_t_of_int x = x.toNat := by
  unfold size_t_of_int
  rw [Int.emod_eq_of_lt h0 h1]

theorem size_t_of_int_neg {x : Int} (hx : IsInt x) (h : x < 0) :
    18446744071562067968 ≤ size_t_of_int x := by
  unfold size_t_of_int
  unfold IsInt at hx
  omega

theorem int_of_size_t_small {n : Nat} (h : n < 2147483648) : int_of_size_t n = (n : Int) := by
  unfold int_of_size_t
  omega

theorem int_wrap_succ {v : Int} (h : -2147483648 ≤ v ∧ v < 2147483647) :
    int_wrap (v + 1) = v + 1 := by
  unfold int_wrap
  omega

theorem int_wrap_isInt (x : Int) : IsInt (int_wrap x) := by
  unfold int_wrap IsInt
  omega

namespace FluidTree

theorem Valid.index {t : FluidTree κ} {i : Int} (hsz : t.SizeOk) (h : t.Valid i) :
    size_t_of_int i = i.toNat ∧ i.toNat < t.nodes.length := by
  unfold Valid at h
  unfold SizeOk at hsz
  have h1 : i < 18446744073709551616 := by omega
  rw [size_t_of_int_nonneg h.1 h1]
  omega

theorem size_t_ge_iff {t : FluidTree κ} {i : Int} (hsz : t.SizeOk) (hi : IsInt i) :
    t.nodes.length ≤ size_t_of_int i ↔ ¬ t.Valid i := by
  unfold Valid
  unfold SizeOk at hsz
  by_cases h0 : 0 ≤ i
  · have h1 : i < 18446744073709551616 := by unfold IsInt at hi; omega
    rw [size_t_of_int_nonneg h0 h1]
    omega
  · have := size_t_of_int_neg hi (by omega)
    omega

theorem Valid.node {t : FluidTree κ} {i : Int} (hsz : t.SizeOk) (h : t.Valid i) :
    ∃ n, t.node? i = some n ∧ t.nodes[i.toNat]? = some n := by
  obtain ⟨h1, h2⟩ := h.index hsz
  refine ⟨t.nodes[i.toNat], ?_, ?_⟩
  · unfold node?
    rw [h1]
    exact List.getElem?_eq_getElem h2
  · exact List.getElem?_eq_getElem h2

/-! ## Accessors -/

/-- C10. With `node_id` an `int` and a store whose size fits an `int`: for an id outside
`[0, size)`, negative or too large, `get_visit_count` is `0` and `get_conductivity` is
`0.0`; for a valid id they are the `visit_count` and `conductivity` stored at that
position.  Both are total and index the store only under the bound they have tested. -/
theorem accessors_zero_outside (D : DoubleOps κ) (t : FluidTree κ) (node_id : Int)
    (hid : IsInt node_id) (hsz : t.SizeOk) :
    (¬ t.Valid node_id →
      get_visit_count t node_id = 0 ∧ get_conductivity D t node_id = D.zero) ∧
    (t.Valid node_id → ∃ n, t.nodes[node_id.toNat]? = some n ∧
      get_visit_count t node_id = n.visit_count ∧
      get_conductivity D t node_id = n.conductivity) := by
  constructor
  · intro hv
    have hge := (size_t_ge_iff hsz hid).mpr hv
    unfold get_visit_count get_conductivity
    constructor <;> rw [dif_neg (by omega)]
  · intro hv
    obtain ⟨h1, h2⟩ := hv.index hsz
    refine ⟨t.nodes[node_id.toNat], List.getElem?_eq_getElem h2, ?_, ?_⟩
    · unfold get_visit_count
      rw [dif_pos (by omega)]
      simp [h1]
    · unfold get_conductivity
      rw [dif_pos (by omega)]
      simp [h1]

theorem accessors_zero_outside_witness :
    get_visit_count (construct ratOps) (-3) = 0 ∧
    get_conductivity ratOps (construct ratOps) 7 = ratOps.zero ∧
    ∃ n, (construct ratOps).nodes[(0 : Int).toNat]? = some n ∧
      get_visit_count (construct ratOps) 0 = n.visit_count ∧
      get_conductivity ratOps (construct ratOps) 0 = n.conductivity :=
  ⟨((accessors_zero_outside ratOps (construct ratOps) (-3) (by decide) (by decide)).1
      (by decide)).1,
   ((accessors_zero_outside ratOps (construct ratOps) 7 (by decide) (by decide)).1
      (by decide)).2,
   (accessors_zero_outside ratOps (construct ratOps) 0 (by decide) (by decide)).2
      (by decide)⟩

/-! ## Node creation -/

/-- C6 (the claim fails on the code). `create_node(-2)` on a freshly constructed tree
does not fail: the only test is `parent_id >= (int)nodes.size()`, which a negative id
passes, so the call returns `1` and appends a node whose parent is `-2`. -/
theorem create_node_accepts_negative_parent (D : DoubleOps κ) :
    create_node D (construct D) (-2) =
      (.ok 1, ⟨[⟨0, 0, D.half, [], -1⟩, ⟨1, 0, D.half, [], -2⟩]⟩) := by
  have h : int_of_size_t 1 = 1 := by decide
  simp [create_node, construct, h]

/-- What the node created by `create_node(-2)` leads to: an ascent from it leaves the
store at its second step, `nodes[-2]`. -/
theorem backpropagate_from_negative_parent (D : DoubleOps κ) (U : κ → κ → κ → κ)
    (reward lr : κ) (fuel : Nat) :
    (backpropagate U (fuel + 2) (create_node D (construct D) (-2)).2 1 reward lr).1 =
      .oob (-2) := by
  have h1 : int_of_size_t 1 = 1 := by decide
  have h2 : size_t_of_int 1 = 1 := by decide
  have h3 : 2 ≤ size_t_of_int (-2) := by decide
  have hc : (create_node D (construct D) (-2)).2 =
      ⟨[⟨0, 0, D.half, [], -1⟩, ⟨1, 0, D.half, [], -2⟩]⟩ := by
    simp [create_node, construct, h1]
  rw [hc]
  unfold backpropagate
  simp only
  rw [backpropagate_loop, if_neg (by decide), h2]
  simp only [List.getElem?_cons_succ, List.getElem?_cons_zero]
  rw [backpropagate_loop, if_neg (by decide), List.getElem?_eq_none (by simpa using h3)]

/-- The part of C6 that holds: a `parent_id >= nodes.size()` makes `create_node` throw
and leaves the store as it was. -/
theorem create_node_rejects_large_parent (D : DoubleOps κ) (t : FluidTree κ) (parent_id : Int)
    (hsz : t.SizeOk) (hp : (t.nodes.length : Int) ≤ parent_id) :
    create_node D t parent_id = (.thrown "Parent ID out of bounds", t) := by
  unfold create_node
  rw [int_of_size_t_small hsz, if_pos (by omega)]

/-! ## Edge attachment -/

theorem add_child_valid (t : FluidTree κ) (p c : Int) (hsz : t.SizeOk)
    (hp : t.Valid p) (hc : t.Valid c) :
    ∃ n, t.nodes[p.toNat]? = some n ∧
      add_child t p c =
        (.ok (), ⟨t.nodes.set p.toNat { n with children := n.children ++ [c] }⟩) := by
  obtain ⟨n, hn, hn2⟩ := hp.node hsz
  obtain ⟨hp1, hp2⟩ := hp.index hsz
  obtain ⟨hc1, hc2⟩ := hc.index hsz
  refine ⟨n, hn2, ?_⟩
  unfold add_child
  rw [if_neg (by have := hp.1; omega), if_neg (by have := hc.1; omega), hn, hp1]

theorem Valid.set {t : FluidTree κ} {i : Int} (k : Nat) (n : Node κ) (h : t.Valid i) :
    Valid ⟨t.nodes.set k n⟩ i := by
  unfold Valid at *
  simpa using h

/-- C7. For valid ids `p` and `c` (the store size within the range of `int`),
`add_child(p, c)` returns normally and the store it leaves differs from the old one only
at position `p`, where the node is the old node with `c` appended at the end of its
children: the node count, every other node, and the id, visit_count, conductivity and
parent of node `p` itself are the same.  A second `add_child(p, c)` appends a second `c`:
no deduplication. -/
theorem add_child_appends (t : FluidTree κ) (p c : Int) (hsz : t.SizeOk)
    (hp : t.Valid p) (hc : t.Valid c) :
    ∃ n, t.nodes[p.toNat]? = some n ∧
      (add_child t p c).1 = .ok () ∧
      (add_child t p c).2.nodes.length = t.nodes.length ∧
      (add_child t p c).2.nodes[p.toNat]? =
        some ⟨n.id, n.visit_count, n.conductivity, n.children ++ [c], n.parent⟩ ∧
      (∀ i : Nat, i ≠ p.toNat → (add_child t p c).2.nodes[i]? = t.nodes[i]?) ∧
      (add_child (add_child t p c).2 p c).1 = .ok () ∧
      (add_child (add_child t p c).2 p c).2.nodes.length = t.nodes.length ∧
      (add_child (add_child t p c).2 p c).2.nodes[p.toNat]? =
        some ⟨n.id, n.visit_count, n.conductivity, n.children ++ [c, c], n.parent⟩ ∧
      (∀ i : Nat, i ≠ p.toNat →
        (add_child (add_child t p c).2 p c).2.nodes[i]? = t.nodes[i]?) := by
  obtain ⟨n, hn, h1⟩ := add_child_valid t p c hsz hp hc
  have hlt : p.toNat < t.nodes.length := (hp.index hsz).2
  have hsz1 : SizeOk (add_child t p c).2 := by
    rw [h1]
    unfold SizeOk at *
    simpa using hsz
  obtain ⟨n1, hn1, h2⟩ := add_child_valid (add_child t p c).2 p c hsz1
    (by rw [h1]; exact hp.set _ _) (by rw [h1]; exact hc.set _ _)
  have e1 : n1 = ⟨n.id, n.visit_count, n.conductivity, n.children ++ [c], n.parent⟩ := by
    rw [h1] at hn1
    simp only [List.getElem?_set_self hlt, Option.some.injEq] at hn1
    exact hn1.symm
  refine ⟨n, hn, ?_, ?_, ?_, ?_, ?_, ?_, ?_, ?_⟩
  · rw [h1]
  · rw [h1]; simp
  · rw [h1]; simp [List.getElem?_set_self hlt]
  · intro i hi
    rw [h1]
    simp [List.getElem?_set_ne (Ne.symm hi)]
  · rw [h2]
  · rw [h2, h1]; simp
  · rw [h2, e1, h1]
    simp [List.set_set, List.getElem?_set_self hlt]
  · intro i hi
    rw [h2, h1]
    simp [List.set_set, List.getElem?_set_ne (Ne.symm hi)]

theorem add_child_appends_witness :
    ∃ n, (construct ratOps).nodes[(0 : Int).toNat]? = some n ∧
      (add_child (construct ratOps) 0 0).1 = .ok () ∧
      (add_child (construct ratOps) 0 0).2.nodes.length = (construct ratOps).nodes.length ∧
      (add_child (construct ratOps) 0 0).2.nodes[(0 : Int).toNat]? =
        some ⟨n.id, n.visit_count, n.conductivity, n.children ++ [0], n.parent⟩ ∧
      (∀ i : Nat, i ≠ (0 : Int).toNat →
        (add_child (construct ratOps) 0 0).2.nodes[i]? = (construct ratOps).nodes[i]?) ∧
      (add_child (add_child (construct ratOps) 0 0).2 0 0).1 = .ok () ∧
      (add_child (add_child (construct ratOps) 0 0).2 0 0).2.nodes.length =
        (construct ratOps).nodes.length ∧
      (add_child (add_child (construct ratOps) 0 0).2 0 0).2.nodes[(0 : Int).toNat]? =
        some ⟨n.id, n.visit_count, n.conductivity, n.children ++ [0, 0], n.parent⟩ ∧
      (∀ i : Nat, i ≠ (0 : Int).toNat →
        (add_child (add_child (construct ratOps) 0 0).2 0 0).2.nodes[i]? =
          (construct ratOps).nodes[i]?) :=
  add_child_appends (construct ratOps) 0 0 (by decide) (by decide) (by decide)

/-- C8. For `int` arguments `p` and `c` (the store size within the range of `int`),
`add_child(p, c)` throws if and only if `p` or `c` lies outside `[0, size)`, negative ids
included; whenever it does not return normally the store is the one before the call; and
when both ids are in range it returns normally. -/
theorem add_child_fails_iff (t : FluidTree κ) (p c : Int) (hp : IsInt p) (hc : IsInt c)
    (hsz : t.SizeOk) :
    ((∃ msg, (add_child t p c).1 = .thrown msg) ↔ ¬ (t.Valid p ∧ t.Valid c)) ∧
    ((add_child t p c).1 ≠ .ok () → (add_child t p c).2 = t) ∧
    (t.Valid p ∧ t.Valid c → (add_child t p c).1 = .ok ()) := by
  by_cases hv : t.Valid p ∧ t.Valid c
  · obtain ⟨n, _, h⟩ := add_child_valid t p c hsz hv.1 hv.2
    rw [h]
    simp [hv]
  · have hfail : (∃ msg, (add_child t p c).1 = .thrown msg) ∧ (add_child t p c).2 = t := by
      unfold add_child
      by_cases hvp : t.Valid p
      · have hvc : ¬ t.Valid c := fun h => hv ⟨hvp, h⟩
        have h1 := (size_t_ge_iff hsz hc).mpr hvc
        obtain ⟨hp1, hp2⟩ := hvp.index hsz
        rw [if_neg (by have := hvp.1; omega), if_pos (Or.inr h1)]
        exact ⟨⟨_, rfl⟩, rfl⟩
      · have h1 := (size_t_ge_iff hsz hp).mpr hvp
        rw [if_pos (Or.inr h1)]
        exact ⟨⟨_, rfl⟩, rfl⟩
    refine ⟨⟨fun _ => hv, fun _ => hfail.1⟩, fun _ => hfail.2, fun h => absurd h hv⟩

theorem add_child_fails_iff_witness :
    (add_child (construct ratOps) 0 (-1)).2 = construct ratOps ∧
    (∃ msg, (add_child (construct ratOps) 0 (-1)).1 = .thrown msg) ∧
    (∃ msg, (add_child (construct ratOps) 1 0).1 = .thrown msg) ∧
    (add_child (construct ratOps) 0 0).1 = .ok () :=
  ⟨(add_child_fails_iff (construct ratOps) 0 (-1) (by decide) (by decide) (by decide)).2.1
      (by
        intro h
        have := (add_child_fails_iff (construct ratOps) 0 (-1) (by decide) (by decide)
          (by decide)).1.2 (by decide)
        rw [h] at this
        obtain ⟨_, hm⟩ := this
        cases hm),
   (add_child_fails_iff (construct ratOps) 0 (-1) (by decide) (by decide) (by decide)).1.2
      (by decide),
   (add_child_fails_iff (construct ratOps) 1 0 (by decide) (by decide) (by decide)).1.2
      (by decide),
   (add_child_fails_iff (construct ratOps) 0 0 (by decide) (by decide) (by decide)).2.2
      (by decide)⟩

/-! ## Most visited child -/

theorem get_visit_count_of_node {t : FluidTree κ} {d : Int} {m : Node κ}
    (h : t.nodes[size_t_of_int d]? = some m) : get_visit_count t d = m.visit_count := by
  obtain ⟨hlt, hm⟩ := List.getElem?_eq_some_iff.mp h
  unfold get_visit_count
  rw [dif_pos hlt]
  simp [hm]

/-- The loop of `get_best_child` over children that all index the store: it returns, and
either no child beats `max_visits` and `best_id` stands, or the result is the first
child, in list order, whose visit count is the greatest of the list. -/
theorem best_loop_spec (t : FluidTree κ) :
    ∀ (rest : List Int) (best_id max_visits : Int),
      (∀ c ∈ rest, size_t_of_int c < t.nodes.length) →
      ∃ r, best_loop t.nodes rest best_id max_visits = .ok r ∧
        ((r = best_id ∧ ∀ d ∈ rest, get_visit_count t d ≤ max_visits) ∨
         (∃ k, rest[k]? = some r ∧ max_visits < get_visit_count t r ∧
            (∀ (j : Nat) (d : Int), j < k → rest[j]? = some d → get_visit_count t d < get_visit_count t r) ∧
            (∀ d ∈ rest, get_visit_count t d ≤ get_visit_count t r))) := by
  intro rest
  induction rest with
  | nil =>
    intro best_id max_visits _
    exact ⟨best_id, rfl, Or.inl ⟨rfl, by simp⟩⟩
  | cons c cs ih =>
    intro best_id max_visits hall
    have hc : size_t_of_int c < t.nodes.length := hall c (by simp)
    have hcs : ∀ d ∈ cs, size_t_of_int d < t.nodes.length :=
      fun d hd => hall d (List.mem_cons_of_mem _ hd)
    have hnode : t.nodes[size_t_of_int c]? = some t.nodes[size_t_of_int c] :=
      List.getElem?_eq_getElem hc
    have hvc := get_visit_count_of_node hnode
    unfold best_loop
    rw [hnode]
    simp only
    by_cases hgt : t.nodes[size_t_of_int c].visit_count > max_visits
    · rw [if_pos hgt]
      obtain ⟨r, hr, hcase⟩ := ih c t.nodes[size_t_of_int c].visit_count hcs
      refine ⟨r, hr, Or.inr ?_⟩
      rcases hcase with ⟨hrc, hle⟩ | ⟨k, hk, hlt, hbefore, hle⟩
      · subst hrc
        refine ⟨0, by simp, by omega, ?_, ?_⟩
        · intro j d hj; omega
        · intro d hd
          rcases List.mem_cons.mp hd with rfl | hd
          · exact le_refl _
          · have := hle d hd; omega
      · refine ⟨k + 1, by simpa using hk, by omega, ?_, ?_⟩
        · intro j d hj hd
          cases j with
          | zero =>
            simp only [List.getElem?_cons_zero, Option.some.injEq] at hd
            subst hd; omega
          | succ j =>
            simp only [List.getElem?_cons_succ] at hd
            exact hbefore j d (by omega) hd
        · intro d hd
          rcases List.mem_cons.mp hd with rfl | hd
          · omega
          · exact hle d hd
    · rw [if_neg hgt]
      obtain ⟨r, hr, hcase⟩ := ih best_id max_visits hcs
      refine ⟨r, hr, ?_⟩
      rcases hcase with ⟨hrc, hle⟩ | ⟨k, hk, hlt, hbefore, hle⟩
      · refine Or.inl ⟨hrc, ?_⟩
        intro d hd
        rcases List.mem_cons.mp hd with rfl | hd
        · omega
        · exact hle d hd
      · refine Or.inr ⟨k + 1, by simpa using hk, hlt, ?_, ?_⟩
        · intro j d hj hd
          cases j with
          | zero =>
            simp only [List.getElem?_cons_zero, Option.some.injEq] at hd
            subst hd; omega
          | succ j =>
            simp only [List.getElem?_cons_succ] at hd
            exact hbefore j d (by omega) hd
        · intro d hd
          rcases List.mem_cons.mp hd with rfl | hd
          · omega
          · exact hle d hd

/-- C4. With `p` an `int` and the store size within the range of `int`:
`get_best_child(p)` is `-1` when `p` is outside `[0, size)` (negative or too large) and
when node `p` has no children.  When `p` is valid, its children list is not empty, all
its children are valid ids and their visit counts are non-negative, the call returns a
child `c` of `p`, at a position `k` of the children list, such that no child of `p` has a
greater visit count than `c`, and every child at a position before `k` has a strictly
smaller visit count than `c` (so `k` is the first position holding `c`, and among the
most visited children the first inserted wins). -/
theorem get_best_child_most_visited (t : FluidTree κ) (p : Int) (hp : IsInt p)
    (hsz : t.SizeOk) :
    (¬ t.Valid p → get_best_child t p = .ok (-1)) ∧
    (∀ n, t.Valid p → t.nodes[p.toNat]? = some n → n.children = [] →
      get_best_child t p = .ok (-1)) ∧
    (∀ n, t.Valid p → t.nodes[p.toNat]? = some n → n.children ≠ [] →
      (∀ c ∈ n.children, t.Valid c ∧ 0 ≤ get_visit_count t c) →
      ∃ c k, get_best_child t p = .ok c ∧ n.children[k]? = some c ∧
        (∀ j : Nat, j < k → n.children[j]? ≠ some c) ∧
        (∀ d ∈ n.children, get_visit_count t d ≤ get_visit_count t c) ∧
        (∀ (j : Nat) (d : Int), j < k → n.children[j]? = some d →
          get_visit_count t d < get_visit_count t c)) := by
  refine ⟨?_, ?_, ?_⟩
  · intro hv
    unfold get_best_child
    rw [if_pos ((size_t_ge_iff hsz hp).mpr hv)]
  · intro n hv hn hch
    obtain ⟨h1, h2⟩ := hv.index hsz
    unfold get_best_child node?
    rw [if_neg (by omega), h1, hn]
    simp [hch]
  · intro n hv hn hch hall
    obtain ⟨h1, h2⟩ := hv.index hsz
    obtain ⟨r, hr, hcase⟩ := best_loop_spec t n.children (-1) (-1)
      (fun c hc => by have := ((hall c hc).1.index hsz); omega)
    have hres : get_best_child t p = .ok r := by
      unfold get_best_child node?
      rw [if_neg (by omega), h1, hn]
      simp only [hch, if_false]
      exact hr
    rcases hcase with ⟨_, hle⟩ | ⟨k, hk, _, hbefore, hle⟩
    · obtain ⟨d, hd⟩ := List.exists_mem_of_ne_nil _ hch
      have h3 := hle d hd
      have h4 := (hall d hd).2
      omega
    · refine ⟨r, k, hres, hk, ?_, hle, hbefore⟩
      intro j hj hjr
      have := hbefore j r hj hjr
      omega

theorem get_best_child_most_visited_witness :
    get_best_child visited_tree (-1) = .ok (-1) ∧
    get_best_child visited_tree 4 = .ok (-1) ∧
    get_best_child visited_tree 1 = .ok (-1) ∧
    ∃ c k, get_best_child visited_tree 0 = .ok c ∧ [(1 : Int), 2, 3][k]? = some c ∧
      (∀ j : Nat, j < k → [(1 : Int), 2, 3][j]? ≠ some c) ∧
      (∀ d ∈ [(1 : Int), 2, 3], get_visit_count visited_tree d ≤ get_visit_count visited_tree c) ∧
      (∀ (j : Nat) (d : Int), j < k → [(1 : Int), 2, 3][j]? = some d →
        get_visit_count visited_tree d < get_visit_count visited_tree c) :=
  ⟨(get_best_child_most_visited visited_tree (-1) (by decide) (by decide)).1 (by decide),
   (get_best_child_most_visited visited_tree 4 (by decide) (by decide)).1 (by decide),
   (get_best_child_most_visited visited_tree 1 (by decide) (by decide)).2.1
      ⟨1, 1, 1 / 2, [], 0⟩ (by decide) rfl rfl,
   (get_best_child_most_visited visited_tree 0 (by decide) (by decide)).2.2
      ⟨0, 11, 1 / 2, [1, 2, 3], -1⟩ (by decide) rfl (by simp) (by decide)⟩

/-! ## Backpropagation -/

theorem IsParentPath.head_valid {t : FluidTree κ} {v : Int} {rest : List Int}
    (h : t.IsParentPath (v :: rest)) : t.Valid v := by
  cases rest with
  | nil => exact h.1
  | cons w rest => exact h.1

theorem IsParentPath.congr {t t1 : FluidTree κ} (hlen : t1.nodes.length = t.nodes.length)
    (hpar : ∀ (i : Nat) n, t.nodes[i]? = some n → ∃ n1, t1.nodes[i]? = some n1 ∧ n1.parent = n.parent) :
    ∀ l : List Int, t.IsParentPath l → t1.IsParentPath l := by
  have hvalid : ∀ v, t.Valid v → t1.Valid v := by
    intro v hv
    unfold Valid at *
    rw [hlen]
    exact hv
  intro l
  induction l with
  | nil => intro h; exact h
  | cons v tl ih =>
    cases tl with
    | nil =>
      rintro ⟨hv, n, hn, hp⟩
      obtain ⟨n1, hn1, hp1⟩ := hpar _ n hn
      exact ⟨hvalid v hv, n1, hn1, by rw [hp1, hp]⟩
    | cons w rest =>
      rintro ⟨hv, ⟨n, hn, hp⟩, hrest⟩
      obtain ⟨n1, hn1, hp1⟩ := hpar _ n hn
      exact ⟨hvalid v hv, ⟨n1, hn1, by rw [hp1, hp]⟩, ih hrest⟩

theorem total_visits_set (U : κ → κ → κ → κ) (reward lr : κ) :
    ∀ (nodes : List (Node κ)) (i : Nat) (n : Node κ), nodes[i]? = some n →
      total_visits (nodes.set i (visited U reward lr n)) = total_visits nodes + 1 := by
  intro nodes
  induction nodes with
  | nil => intro i n h; simp at h
  | cons m ms ih =>
    intro i n h
    cases i with
    | zero =>
      simp only [List.getElem?_cons_zero, Option.some.injEq] at h
      subst h
      simp only [total_visits, List.set_cons_zero, List.map_cons, List.sum_cons, visited]
      omega
    | succ i =>
      simp only [List.getElem?_cons_succ] at h
      have := ih i n h
      simp only [total_visits, List.set_cons_succ, List.map_cons, List.sum_cons] at *
      omega

/-- The ascent loop along a parent chain without repetition: with one unit of fuel for
each node of the chain it ends normally, having visited exactly the nodes of the chain. -/
theorem backpropagate_loop_path (U : κ → κ → κ → κ) (reward lr : κ) :
    ∀ (rest : List Int) (v : Int) (nodes : List (Node κ)) (fuel : Nat),
      nodes.length < 2147483648 → IsParentPath ⟨nodes⟩ (v :: rest) → (v :: rest).Nodup →
      (∀ (i : Nat) n, (i : Int) ∈ v :: rest → nodes[i]? = some n → CanCount n) →
      rest.length + 1 ≤ fuel →
      (backpropagate_loop U reward lr fuel nodes v).1 = .ok () ∧
      (backpropagate_loop U reward lr fuel nodes v).2.length = nodes.length ∧
      (∀ (i : Nat) n, nodes[i]? = some n →
        (backpropagate_loop U reward lr fuel nodes v).2[i]? =
          some (if (i : Int) ∈ v :: rest then visited U reward lr n else n)) ∧
      total_visits (backpropagate_loop U reward lr fuel nodes v).2 =
        total_visits nodes + ((rest.length + 1 : Nat) : Int) := by
  intro rest
  induction rest with
  | nil =>
    intro v nodes fuel hsz hpath _ hcount hfuel
    obtain ⟨hv, n, hn, hp⟩ := hpath
    obtain ⟨h1, h2⟩ := Valid.index (t := ⟨nodes⟩) hsz hv
    obtain ⟨f, rfl⟩ : ∃ f, fuel = f + 1 := ⟨fuel - 1, by simp at hfuel; omega⟩
    have hne : v ≠ -1 := by have := hv.1; omega
    have hw : int_wrap (n.visit_count + 1) = n.visit_count + 1 :=
      int_wrap_succ (hcount v.toNat n (by simp [Int.toNat_of_nonneg hv.1]) hn)
    have hstep : backpropagate_loop U reward lr (f + 1) nodes v =
        (.ok (), nodes.set v.toNat (visited U reward lr n)) := by
      rw [backpropagate_loop, if_neg hne, h1, hn]
      simp only [hp, hw]
      cases f <;> simp [backpropagate_loop, visited, hp]
    rw [hstep]
    refine ⟨rfl, by simp, ?_, ?_⟩
    · intro i m hm
      by_cases hi : i = v.toNat
      · subst hi
        have e : m = n := by rw [hn] at hm; exact (Option.some.inj hm).symm
        have hmem : ((v.toNat : Nat) : Int) ∈ [v] := by
          simp [Int.toNat_of_nonneg hv.1]
        simp only [List.getElem?_set_self h2, hmem, if_true, e]
      · have hnot : ¬ ((i : Int) ∈ [v]) := by
          simp only [List.mem_singleton]
          intro h
          apply hi
          omega
        simp only [List.getElem?_set_ne (Ne.symm hi), hm, hnot, if_false]
    · rw [total_visits_set U reward lr nodes _ n hn]
      simp
  | cons w rest ih =>
    intro v nodes fuel hsz hpath hnodup hcount hfuel
    obtain ⟨hv, ⟨n, hn, hp⟩, hrest⟩ := hpath
    obtain ⟨h1, h2⟩ := Valid.index (t := ⟨nodes⟩) hsz hv
    obtain ⟨f, rfl⟩ : ∃ f, fuel = f + 1 := ⟨fuel - 1, by simp at hfuel; omega⟩
    have hne : v ≠ -1 := by have := hv.1; omega
    have hw : int_wrap (n.visit_count + 1) = n.visit_count + 1 :=
      int_wrap_succ (hcount v.toNat n (by simp [Int.toNat_of_nonneg hv.1]) hn)
    have hstep : backpropagate_loop U reward lr (f + 1) nodes v =
        backpropagate_loop U reward lr f (nodes.set v.toNat (visited U reward lr n)) w := by
      rw [backpropagate_loop, if_neg hne, h1, hn]
      simp only [hp, hw, visited]
    have hrest1 : IsParentPath ⟨nodes.set v.toNat (visited U reward lr n)⟩ (w :: rest) := by
      refine IsParentPath.congr (t := ⟨nodes⟩) (by simp) ?_ _ hrest
      intro i m hm
      by_cases hi : i = v.toNat
      · subst hi
        have e : m = n := by rw [hn] at hm; exact (Option.some.inj hm).symm
        exact ⟨_, List.getElem?_set_self h2, by rw [e]; rfl⟩
      · exact ⟨m, by simp only [List.getElem?_set_ne (Ne.symm hi), hm], rfl⟩
    obtain ⟨hvnot, hnodup1⟩ := List.nodup_cons.mp hnodup
    have hcount1 : ∀ (i : Nat) m, (i : Int) ∈ w :: rest →
        (nodes.set v.toNat (visited U reward lr n))[i]? = some m → CanCount m := by
      intro i m hmem hm
      have hi : i ≠ v.toNat := by
        intro h
        apply hvnot
        rw [h, Int.toNat_of_nonneg hv.1] at hmem
        exact hmem
      rw [List.getElem?_set_ne (Ne.symm hi)] at hm
      exact hcount i m (List.mem_cons_of_mem _ hmem) hm
    obtain ⟨r1, r2, r3, r4⟩ := ih w (nodes.set v.toNat (visited U reward lr n)) f
      (by simpa using hsz) hrest1 hnodup1 hcount1 (by simp at hfuel ⊢; omega)
    rw [hstep]
    refine ⟨r1, by simpa using r2, ?_, ?_⟩
    · intro i m hm
      by_cases hi : i = v.toNat
      · subst hi
        have e : m = n := by rw [hn] at hm; exact (Option.some.inj hm).symm
        have hcast : ((v.toNat : Nat) : Int) = v := Int.toNat_of_nonneg hv.1
        rw [r3 _ _ (List.getElem?_set_self h2), hcast, if_neg hvnot, e]
        simp
      · have hcast : (i : Int) ≠ v := by
          intro h
          apply hi
          omega
        rw [r3 i m (by simp only [List.getElem?_set_ne (Ne.symm hi), hm])]
        simp only [List.mem_cons, hcast, false_or]
    · rw [r4, total_visits_set U reward lr nodes _ n hn]
      simp only [List.length_cons]
      push_cast
      omega

theorem scenario_tree_nodes :
    scenario_tree.nodes =
      [⟨0, 0, 1 / 2, [1, 2], -1⟩, ⟨1, 0, 1 / 2, [], 0⟩, ⟨2, 0, 1 / 2, [], 0⟩] := by
  have h1 : int_of_size_t 1 = 1 := by decide
  have h2 : int_of_size_t 2 = 2 := by decide
  have h3 : size_t_of_int 0 = 0 := by decide
  have h4 : size_t_of_int 1 = 1 := by decide
  have h5 : size_t_of_int 2 = 2 := by decide
  simp [scenario_tree, construct, create_node, add_child, node?, ratOps, h1, h2, h3, h4, h5]

/-- C1 (as amended). Let the parent chain of `leaf` be well formed: `leaf :: rest` lists
valid ids, each the parent of the one before, the last with parent `-1`, no id twice (the
store size within the range of `int`), and let the counter of every node on the chain
be an `int` below `INT_MAX = 2147483647`.  Then for every update policy `U`, reward and
learning rate, `backpropagate(leaf, reward, lr)` ends normally as soon as it may run one
iteration for each node of the chain, and in the store it leaves every node on the chain
has its `visit_count` increased by exactly 1 and its conductivity `c` replaced by
`U(c, reward, lr)`, and every other node, as well as the other fields of the nodes on the
chain, is unchanged; the node count is the same, and the sum of all visit counts has
grown by the length of the chain, `depth(leaf) + 1`. -/
theorem backpropagate_visits_path (U : κ → κ → κ → κ) (reward lr : κ) (t : FluidTree κ)
    (leaf : Int) (rest : List Int) (hsz : t.SizeOk) (hpath : t.IsParentPath (leaf :: rest))
    (hnodup : (leaf :: rest).Nodup)
    (hcount : ∀ (i : Nat) n, (i : Int) ∈ leaf :: rest → t.nodes[i]? = some n → CanCount n)
    (fuel : Nat) (hfuel : rest.length + 1 ≤ fuel) :
    (backpropagate U fuel t leaf reward lr).1 = .ok () ∧
    (backpropagate U fuel t leaf reward lr).2.nodes.length = t.nodes.length ∧
    (∀ (i : Nat) n, t.nodes[i]? = some n →
      (backpropagate U fuel t leaf reward lr).2.nodes[i]? =
        some (if (i : Int) ∈ leaf :: rest then
          ⟨n.id, n.visit_count + 1, U n.conductivity reward lr, n.children, n.parent⟩
        else n)) ∧
    total_visits (backpropagate U fuel t leaf reward lr).2.nodes =
      total_visits t.nodes + ((rest.length + 1 : Nat) : Int) :=
  backpropagate_loop_path U reward lr rest leaf t.nodes fuel hsz hpath hnodup hcount hfuel

theorem backpropagate_visits_path_witness :
    (backpropagate smoothing 2 scenario_tree 1 1 (1 / 10)).1 = .ok () ∧
    (backpropagate smoothing 2 scenario_tree 1 1 (1 / 10)).2.nodes[1]? =
      some ⟨1, 1, 11 / 20, [], 0⟩ ∧
    (backpropagate smoothing 2 scenario_tree 1 1 (1 / 10)).2.nodes[0]? =
      some ⟨0, 1, 11 / 20, [1, 2], -1⟩ ∧
    (backpropagate smoothing 2 scenario_tree 1 1 (1 / 10)).2.nodes[2]? =
      some ⟨2, 0, 1 / 2, [], 0⟩ ∧
    (backpropagate smoothing 2 scenario_tree 1 1 (1 / 10)).2.nodes.length = 3 ∧
    total_visits (backpropagate smoothing 2 scenario_tree 1 1 (1 / 10)).2.nodes = 2 := by
  have hn := scenario_tree_nodes
  have hsz : scenario_tree.SizeOk := by unfold SizeOk; rw [hn]; decide
  have hpath : scenario_tree.IsParentPath [1, 0] := by
    refine ⟨?_, ⟨⟨1, 0, 1 / 2, [], 0⟩, ?_, rfl⟩, ?_, ⟨⟨0, 0, 1 / 2, [1, 2], -1⟩, ?_, rfl⟩⟩
    · unfold Valid; rw [hn]; decide
    · rw [hn]; rfl
    · unfold Valid; rw [hn]; decide
    · rw [hn]; rfl
  have hcount : ∀ (i : Nat) n, (i : Int) ∈ [(1 : Int), 0] → scenario_tree.nodes[i]? = some n →
      CanCount n := by
    intro i n _ hi
    have hmem := List.getElem?_mem hi
    rw [hn] at hmem
    simp only [List.mem_cons, List.mem_singleton, List.not_mem_nil, or_false] at hmem
    rcases hmem with rfl | rfl | rfl <;> exact ⟨by decide, by decide⟩
  obtain ⟨h1, h2, h3, h4⟩ :=
    backpropagate_visits_path smoothing 1 (1 / 10) scenario_tree 1 [0] hsz hpath (by decide)
      hcount 2 (by decide)
  refine ⟨h1, ?_, ?_, ?_, ?_, ?_⟩
  · have := h3 1 ⟨1, 0, 1 / 2, [], 0⟩ (by rw [hn]; rfl)
    rw [this]
    simp [smoothing]
    norm_num
  · have := h3 0 ⟨0, 0, 1 / 2, [1, 2], -1⟩ (by rw [hn]; rfl)
    rw [this]
    simp [smoothing]
    norm_num
  · have := h3 2 ⟨2, 0, 1 / 2, [], 0⟩ (by rw [hn]; rfl)
    rw [this]
    simp
  · rw [h2, hn]; rfl
  · rw [h4, hn]; simp [total_visits]

/-- C1 as stated fails on the code.  In the one-node tree whose root counter stands at
`INT_MAX = 2147483647` the parent chain of the root is well formed, and
`backpropagate(0, 1, 1/10)` ends normally, but the counter it leaves is `-2147483648`, not
`2147483647 + 1`: the increment of the 32-bit `int` wraps. -/
theorem backpropagate_wraps_at_int_max :
    saturated_tree.SizeOk ∧ saturated_tree.IsParentPath [0] ∧ [(0 : Int)].Nodup ∧
    saturated_tree.nodes[0]? = some ⟨0, 2147483647, 1 / 2, [], -1⟩ ∧
    (backpropagate smoothing 1 saturated_tree 0 1 (1 / 10)).1 = .ok () ∧
    ∃ n1, (backpropagate smoothing 1 saturated_tree 0 1 (1 / 10)).2.nodes[0]? = some n1 ∧
      n1.visit_count = -2147483648 ∧ n1.visit_count ≠ 2147483647 + 1 := by
  have h0 : size_t_of_int 0 = 0 := by decide
  have hw : int_wrap (2147483647 + 1) = -2147483648 := by decide
  have hrun : backpropagate smoothing 1 saturated_tree 0 1 (1 / 10) =
      (.ok (), ⟨[⟨0, -2147483648, smoothing (1 / 2) 1 (1 / 10), [], -1⟩]⟩) := by
    simp only [backpropagate, saturated_tree]
    rw [backpropagate_loop, if_neg (by decide), h0]
    simp only [List.getElem?_cons_zero, hw, List.set_cons_zero]
    rw [backpropagate_loop, if_pos rfl]
  refine ⟨by decide, ⟨by decide, ⟨0, 2147483647, 1 / 2, [], -1⟩, rfl, rfl⟩, by decide, rfl,
    by rw [hrun], ?_⟩
  rw [hrun]
  exact ⟨_, rfl, rfl, by decide⟩

/-! ## Selection: the sampling step -/

theorem get_conductivity_of_node (D : DoubleOps κ) {t : FluidTree κ} {d : Int} {m : Node κ}
    (h : t.nodes[size_t_of_int d]? = some m) : get_conductivity D t d = m.conductivity := by
  obtain ⟨hlt, hm⟩ := List.getElem?_eq_some_iff.mp h
  unfold get_conductivity
  rw [dif_pos hlt]
  simp [hm]

theorem gather_conds_ok (D : DoubleOps κ) (t : FluidTree κ) :
    ∀ cs : List Int, (∀ c ∈ cs, size_t_of_int c < t.nodes.length) →
      gather_conds t.nodes cs = .ok (cs.map (get_conductivity D t)) := by
  intro cs
  induction cs with
  | nil => intro _; rfl
  | cons c cs ih =>
    intro hall
    have hc : size_t_of_int c < t.nodes.length := hall c (by simp)
    have hnode : t.nodes[size_t_of_int c]? = some t.nodes[size_t_of_int c] :=
      List.getElem?_eq_getElem hc
    rw [gather_conds, hnode]
    simp only
    rw [ih (fun d hd => hall d (List.mem_cons_of_mem _ hd))]
    simp [get_conductivity_of_node D hnode]

/-- The value the sampling loop leaves in `next_idx` is `0` or an index it examined. -/
theorem sample_loop_range (D : DoubleOps κ) (r : κ) (probs : List κ) :
    ∀ (k i : Nat) (cum : κ), sample_loop D r probs k i cum = 0 ∨
      ∃ j : Nat, sample_loop D r probs k i cum = (j : Int) ∧ i ≤ j ∧ j < i + k := by
  intro k
  induction k with
  | zero => intro i cum; exact Or.inl rfl
  | succ k ih =>
    intro i cum
    rw [sample_loop]
    split
    · exact Or.inr ⟨i, rfl, le_refl i, by omega⟩
    · rcases ih (i + 1) (D.add cum (probs.getD i D.zero)) with h | ⟨j, h1, h2, h3⟩
      · exact Or.inl h
      · exact Or.inr ⟨j, h1, by omega, by omega⟩

/-- One pass of the descent loop at a valid node with children, all of them valid: the
pass ends with `curr = children[next_idx]`, where `next_idx` is what the sampling loop
computes from the policy's vector for the children's conductivities. -/
theorem select_step_descends (D : DoubleOps κ) (P : Int → List κ → κ → List κ)
    (exploration r : κ) (t : FluidTree κ) (curr : Int) (n : Node κ)
    (hsz : t.SizeOk) (hcurr : t.Valid curr) (hn : t.nodes[curr.toNat]? = some n)
    (hne : n.children ≠ []) (hlen : n.children.length < 2147483648)
    (hch : ∀ c ∈ n.children, t.Valid c) :
    ∃ (k : Nat) (c : Int), n.children[k]? = some c ∧
      sample_loop D r
        (P (n.children.length : Int) (n.children.map (get_conductivity D t)) exploration)
        n.children.length 0 D.zero = (k : Int) ∧
      select_step D P exploration t.nodes r curr = .ok (false, c) := by
  obtain ⟨h1, h2⟩ := hcurr.index hsz
  have hpos : 0 < n.children.length := List.length_pos.mpr hne
  have hgather := gather_conds_ok D t n.children
    (fun c hc => by have := (hch c hc).index hsz; omega)
  rcases sample_loop_range D r
      (P (n.children.length : Int) (n.children.map (get_conductivity D t)) exploration)
      n.children.length 0 D.zero with h0 | ⟨j, hj, _, hjlt⟩
  · refine ⟨0, n.children[0], List.getElem?_eq_getElem hpos, by simpa using h0, ?_⟩
    unfold select_step
    rw [if_neg (by omega), h1, hn]
    simp only [hne, if_false, int_of_size_t_small hlen, Int.toNat_ofNat, List.take_length,
      hgather, h0]
    rw [if_neg (by omega), if_neg (by omega)]
    have e : size_t_of_int 0 = 0 := by decide
    rw [e, List.getElem?_eq_getElem hpos]
  · have hjlt1 : j < n.children.length := by omega
    refine ⟨j, n.children[j], List.getElem?_eq_getElem hjlt1, hj, ?_⟩
    unfold select_step
    rw [if_neg (by omega), h1, hn]
    simp only [hne, if_false, int_of_size_t_small hlen, Int.toNat_ofNat, List.take_length,
      hgather, hj]
    rw [if_neg (by omega), if_neg (by omega)]
    have e : size_t_of_int (j : Int) = j := by
      rw [size_t_of_int_nonneg (by omega) (by omega)]
      simp
    rw [e, List.getElem?_eq_getElem hjlt1]

end FluidTree

/-! ## Persistence: save then load -/

namespace FluidTree

end FluidTree

/-! ## Loading a file that is not a saved tree -/

theorem check_magic_mismatch (e0 e1 e2 e3 : Byte) (inp : List Byte) (hlen : 4 ≤ inp.length)
    (hne : inp.take 4 ≠ [e0, e1, e2, e3]) :
    check_magic [e0, e1, e2, e3] inp = some false := by
  match inp, hlen with
  | b0 :: b1 :: b2 :: b3 :: rest, _ =>
    simp only [List.take_succ_cons, List.take_zero, ne_eq, List.cons.injEq, and_true] at hne
    simp only [check_magic]
    by_cases h0 : b0 = e0
    · by_cases h1 : b1 = e1
      · by_cases h2 : b2 = e2
        · have h3 : b3 ≠ e3 := fun h3 => hne ⟨h0, h1, h2, h3⟩
          simp [h0, h1, h2, h3]
        · simp [h0, h1, h2]
      · simp [h0, h1]
    · simp [h0]

theorem check_magic_true (e : List Byte) :
    ∀ inp : List Byte, check_magic e inp = some true → inp.take e.length = e := by
  induction e with
  | nil => intro inp _; simp
  | cons x xs ih =>
    intro inp h
    cases inp with
    | nil => simp [check_magic] at h
    | cons b bs =>
      simp only [check_magic] at h
      by_cases hb : b = x
      · simp only [hb, ne_eq, not_true_eq_false, if_false] at h
        simp [hb, ih bs h]
      · simp [hb] at h

namespace FluidTree

/-- C17. For every tree state: when the file cannot be opened, and when the file holds
at least four bytes of which the first four are not `FLUX`, `load_from_file` returns
normally and the store is exactly the one before the call.  The store after a call
differs from the one before only when the file was opened and begins with `FLUX`. -/
theorem load_from_file_bad_magic (R : DoubleRepr κ) (t : FluidTree κ) :
    load_from_file R none t = (.ok (), t) ∧
    (∀ inp : List Byte, 4 ≤ inp.length → inp.take 4 ≠ [byte 70, byte 76, byte 85, byte 88] →
      load_from_file R (some inp) t = (.ok (), t)) ∧
    (∀ file, (load_from_file R file t).2 ≠ t →
      ∃ inp, file = some inp ∧ inp.take 4 = [byte 70, byte 76, byte 85, byte 88]) := by
  refine ⟨rfl, ?_, ?_⟩
  · intro inp hlen hne
    unfold load_from_file
    simp only
    rw [check_magic_mismatch _ _ _ _ inp hlen hne]
  · intro file hchanged
    cases file with
    | none => exact absurd rfl hchanged
    | some inp =>
      refine ⟨inp, rfl, ?_⟩
      unfold load_from_file at hchanged
      simp only at hchanged
      cases hm : check_magic [byte 70, byte 76, byte 85, byte 88] inp with
      | none => rw [hm] at hchanged; exact absurd rfl hchanged
      | some b =>
        cases b with
        | false => rw [hm] at hchanged; exact absurd rfl hchanged
        | true => exact check_magic_true _ inp hm

theorem load_from_file_bad_magic_witness :
    load_from_file bitsRepr (some [byte 70, byte 76, byte 85, byte 89, byte 1]) stored_tree =
      (.ok (), stored_tree) ∧
    ∃ inp, some [byte 70, byte 76, byte 85, byte 88, byte 0, byte 0, byte 0, byte 0] = some inp ∧
      inp.take 4 = [byte 70, byte 76, byte 85, byte 88] :=
  ⟨(load_from_file_bad_magic bitsRepr stored_tree).2.1 _ (by decide) (by decide),
   (load_from_file_bad_magic bitsRepr stored_tree).2.2
      (some [byte 70, byte 76, byte 85, byte 88, byte 0, byte 0, byte 0, byte 0])
      (by
        have h : (load_from_file bitsRepr
            (some [byte 70, byte 76, byte 85, byte 88, byte 0, byte 0, byte 0, byte 0])
            stored_tree).2 = ⟨[]⟩ := by
          simp [load_from_file, check_magic, read_int, int_of_bytes, byte, load_nodes]
        rw [h]
        intro hcontra
        have := congrArg (fun t => t.nodes.length) hcontra
        simp [stored_tree] at this)⟩

/-! ## Selection: no index reaches the drawn value -/

/-- The sampling loop when the running sum reaches `r` at none of the indices it
examines: `next_idx` is left at `0`. -/
theorem sample_loop_none (D : DoubleOps κ) (r : κ) (probs : List κ) :
    ∀ (k i : Nat),
      (∀ j, i ≤ j → j < i + k → D.le r (cumulative D probs (j + 1)) = false) →
      sample_loop D r probs k i (cumulative D probs i) = 0 := by
  intro k
  induction k with
  | zero => intro i _; rfl
  | succ k ih =>
    intro i hnone
    rw [sample_loop]
    have hcum : D.add (cumulative D probs i) (probs.getD i D.zero) = cumulative D probs (i + 1) :=
      rfl
    rw [hcum, hnone i (le_refl i) (by omega)]
    simp only [Bool.false_eq_true, if_false]
    exact ih (i + 1) (fun j h1 h2 => hnone j (by omega) (by omega))

/-- One pass of the descent loop when the running sum reaches `r` at no index: the pass
moves to the first child, `children[0]`. -/
theorem select_step_none_first (D : DoubleOps κ) (P : Int → List κ → κ → List κ)
    (exploration r : κ) (t : FluidTree κ) (curr : Int) (n : Node κ)
    (hsz : t.SizeOk) (hcurr : t.Valid curr) (hn : t.nodes[curr.toNat]? = some n)
    (hne : n.children ≠ []) (hlen : n.children.length < 2147483648)
    (hch : ∀ c ∈ n.children, t.Valid c)
    (hnone : ∀ j, j < n.children.length → D.le r (cumulative D
      (P (n.children.length : Int) (n.children.map (get_conductivity D t)) exploration)
      (j + 1)) = false) :
    ∃ c, n.children[0]? = some c ∧
      select_step D P exploration t.nodes r curr = .ok (false, c) := by
  obtain ⟨k, c, hc, hs, hstep⟩ :=
    select_step_descends D P exploration r t curr n hsz hcurr hn hne hlen hch
  have h0 := sample_loop_none D r
    (P (n.children.length : Int) (n.children.map (get_conductivity D t)) exploration)
    n.children.length 0 (fun j _ h => hnone j (by omega))
  have h0a : sample_loop D r
      (P (n.children.length : Int) (n.children.map (get_conductivity D t)) exploration)
      n.children.length 0 D.zero = 0 := h0
  rw [h0a] at hs
  have hk : k = 0 := by omega
  subst hk
  exact ⟨c, hc, hstep⟩

/-- C19 (the claim fails on the code). At the root of the scenario tree, children
`[1, 2]`, with a policy vector `[1/2, 1/4]` and the drawn value `r = 1`, the running sum
reaches `r` at neither index, and the pass of the descent loop moves to node `1`, the
first child, not to the last child `2`: `next_idx` starts at `0`, so the guard
`next_idx >= n_child` that was to pick the last child never fires. -/
theorem select_step_fallback_is_first_child :
    (∀ j, j < 2 → ratOps.le 1 (cumulative ratOps (short_policy 2 [1 / 2, 1 / 2] 1) (j + 1)) = false) ∧
    scenario_tree.nodes[0]? = some ⟨0, 0, 1 / 2, [1, 2], -1⟩ ∧
    select_step ratOps short_policy 1 scenario_tree.nodes 1 0 = .ok (false, 1) := by
  have hn := scenario_tree_nodes
  have hnone : ∀ j, j < 2 →
      ratOps.le 1 (cumulative ratOps (short_policy 2 [1 / 2, 1 / 2] 1) (j + 1)) = false := by
    intro j hj
    interval_cases j
    · simp only [cumulative, short_policy, ratOps, List.getD_cons_zero, decide_eq_false_iff_not]
      norm_num
    · simp only [cumulative, short_policy, ratOps, List.getD_cons_zero, List.getD_cons_succ,
        decide_eq_false_iff_not]
      norm_num
  refine ⟨hnone, by rw [hn]; rfl, ?_⟩
  obtain ⟨c, hc, hstep⟩ := select_step_none_first ratOps short_policy 1 1 scenario_tree 0
    ⟨0, 0, 1 / 2, [1, 2], -1⟩ (by unfold SizeOk; rw [hn]; decide)
    (by unfold Valid; rw [hn]; decide) (by rw [hn]; rfl) (by simp) (by simp)
    (by
      intro c hc
      unfold Valid
      rw [hn]
      simp only [List.mem_cons, List.mem_singleton, List.not_mem_nil, or_false] at hc
      rcases hc with rfl | rfl <;> decide)
    (by
      intro j hj
      exact hnone j (by simpa using hj))
  simp only [List.getElem?_cons_zero, Option.some.injEq] at hc
  rw [hstep, hc]

/-! ## What a call leaves of the store -/

/-- The ascent loop, however it ends, keeps the node count and at every position the id,
parent and children; a visit count that is an `int` stays one. -/
theorem backpropagate_loop_frame (U : κ → κ → κ → κ) (reward lr : κ) :
    ∀ (fuel : Nat) (nodes : List (Node κ)) (curr : Int),
      (backpropagate_loop U reward lr fuel nodes curr).2.length = nodes.length ∧
      ∀ (i : Nat) n, nodes[i]? = some n →
        ∃ n1, (backpropagate_loop U reward lr fuel nodes curr).2[i]? = some n1 ∧
          n1.id = n.id ∧ n1.parent = n.parent ∧ n1.children = n.children ∧
          (IsInt n.visit_count → IsInt n1.visit_count) := by
  intro fuel
  induction fuel with
  | zero =>
    intro nodes curr
    rw [backpropagate_loop]
    split <;> exact ⟨rfl, fun i n hn => ⟨n, hn, rfl, rfl, rfl, fun h => h⟩⟩
  | succ fuel ih =>
    intro nodes curr
    rw [backpropagate_loop]
    by_cases hc : curr = -1
    · rw [if_pos hc]
      exact ⟨rfl, fun i n hn => ⟨n, hn, rfl, rfl, rfl, fun h => h⟩⟩
    · rw [if_neg hc]
      cases hm : nodes[size_t_of_int curr]? with
      | none => exact ⟨rfl, fun i n hn => ⟨n, hn, rfl, rfl, rfl, fun h => h⟩⟩
      | some m =>
        simp only
        have hlt : size_t_of_int curr < nodes.length := (List.getElem?_eq_some_iff.mp hm).1
        obtain ⟨r1, r2⟩ := ih
          (nodes.set (size_t_of_int curr)
            ⟨m.id, int_wrap (m.visit_count + 1), U m.conductivity reward lr, m.children,
              m.parent⟩)
          m.parent
        refine ⟨by rw [r1, List.length_set], ?_⟩
        intro i n hn
        by_cases hi : i = size_t_of_int curr
        · subst hi
          have e : n = m := by rw [hm] at hn; exact (Option.some.inj hn).symm
          obtain ⟨n1, h1, h2, h3, h4, h5⟩ := r2 _ _ (List.getElem?_set_self hlt)
          subst e
          exact ⟨n1, h1, h2, h3, h4, fun _ => h5 (int_wrap_isInt _)⟩
        · exact r2 i n (by rw [List.getElem?_set_ne (Ne.symm hi)]; exact hn)

/-- Whatever the call and however it ends: the node count does not decrease; at every
position the id and the parent stay and a visit count that is an `int` stays one; and the
visit count is the same unless the call is a `backpropagate`. -/
theorem run_frame (E : Kernels κ) (t : FluidTree κ) (c : Call κ) :
    t.nodes.length ≤ (run E t c).2.nodes.length ∧
    ∀ (i : Nat) n, t.nodes[i]? = some n →
      ∃ n1, (run E t c).2.nodes[i]? = some n1 ∧ n1.id = n.id ∧ n1.parent = n.parent ∧
        (IsInt n.visit_count → IsInt n1.visit_count) ∧
        (c.isBackpropagate = false → n1.visit_count = n.visit_count) := by
  have hrefl : t.nodes.length ≤ t.nodes.length ∧
      ∀ (i : Nat) n, t.nodes[i]? = some n →
        ∃ n1, t.nodes[i]? = some n1 ∧ n1.id = n.id ∧ n1.parent = n.parent ∧
          (IsInt n.visit_count → IsInt n1.visit_count) ∧
          (c.isBackpropagate = false → n1.visit_count = n.visit_count) :=
    ⟨le_refl _, fun i n hn => ⟨n, hn, rfl, rfl, fun h => h, fun _ => rfl⟩⟩
  cases c with
  | create_node parent_id =>
    simp only [run, create_node]
    split
    · exact hrefl
    · refine ⟨by simp, ?_⟩
      intro i n hn
      have hlt : i < t.nodes.length := (List.getElem?_eq_some_iff.mp hn).1
      exact ⟨n, by simp only [List.getElem?_append_left hlt, hn], rfl, rfl, fun h => h,
        fun _ => rfl⟩
  | add_child parent_id child_id =>
    simp only [run, add_child]
    split
    · exact hrefl
    · split
      · exact hrefl
      · cases hm : t.node? parent_id with
        | none => exact hrefl
        | some m =>
          simp only
          have hm1 : t.nodes[size_t_of_int parent_id]? = some m := hm
          have hlt : size_t_of_int parent_id < t.nodes.length :=
            (List.getElem?_eq_some_iff.mp hm1).1
          refine ⟨by simp, ?_⟩
          intro i n hn
          by_cases hi : i = size_t_of_int parent_id
          · subst hi
            have e : n = m := by rw [hm1] at hn; exact (Option.some.inj hn).symm
            subst e
            exact ⟨_, List.getElem?_set_self hlt, rfl, rfl, fun h => h, fun _ => rfl⟩
          · exact ⟨n, by simp only [List.getElem?_set_ne (Ne.symm hi), hn], rfl, rfl,
              fun h => h, fun _ => rfl⟩
  | select_leaf draws fuel start_node exploration => exact hrefl
  | backpropagate fuel leaf_node reward learning_rate =>
    obtain ⟨r1, r2⟩ :=
      backpropagate_loop_frame E.fz_update_conductivity reward learning_rate fuel t.nodes
        leaf_node
    refine ⟨by simp only [run, backpropagate]; omega, ?_⟩
    intro i n hn
    obtain ⟨n1, h1, h2, h3, _, h5⟩ := r2 i n hn
    exact ⟨n1, by simpa only [run, backpropagate] using h1, h2, h3, h5,
      fun h => by simp [Call.isBackpropagate] at h⟩
  | get_best_child node_id => exact hrefl
  | get_children node_id out_buf max_len => exact hrefl

/-- A position the call has added to the store holds the node `create_node` builds. -/
theorem run_new_node (E : Kernels κ) (t : FluidTree κ) (c : Call κ) (i : Nat) (n : Node κ)
    (hn : (run E t c).2.nodes[i]? = some n) (hi : t.nodes.length ≤ i) :
    ∃ parent_id, c = .create_node parent_id ∧ i = t.nodes.length ∧
      parent_id < int_of_size_t t.nodes.length ∧
      n = ⟨int_of_size_t t.nodes.length, 0, E.ops.half, [], parent_id⟩ := by
  have hlt : i < (run E t c).2.nodes.length := (List.getElem?_eq_some_iff.mp hn).1
  cases c with
  | create_node parent_id =>
    simp only [run, create_node] at hn hlt
    split at hn
    · simp only [*, if_true] at hlt
      omega
    · next hp =>
      simp only [hp, if_false, List.length_append, List.length_cons, List.length_nil] at hlt
      have hi1 : i = t.nodes.length := by omega
      subst hi1
      simp only [List.getElem?_append_right (le_refl _), Nat.sub_self, List.getElem?_cons_zero,
        Option.some.injEq] at hn
      exact ⟨parent_id, rfl, rfl, by omega, hn.symm⟩
  | add_child parent_id child_id =>
    exfalso
    simp only [run, add_child] at hlt
    split at hlt
    · dsimp only at hlt
      omega
    · split at hlt
      · dsimp only at hlt
        omega
      · split at hlt
        · dsimp only at hlt
          omega
        · simp only [List.length_set] at hlt
          omega
  | select_leaf draws fuel start_node exploration =>
    exfalso
    simp only [run] at hlt
    omega
  | backpropagate fuel leaf_node reward learning_rate =>
    exfalso
    have := (backpropagate_loop_frame E.fz_update_conductivity reward learning_rate fuel
      t.nodes leaf_node).1
    simp only [run, backpropagate] at hlt
    omega
  | get_best_child node_id =>
    exfalso
    simp only [run] at hlt
    omega
  | get_children node_id out_buf max_len =>
    exfalso
    simp only [run] at hlt
    omega

/-! ## Invariants of the reachable states -/

/-- In every reachable state every visit count is an `int`. -/
theorem reachable_visits_int (E : Kernels κ) (t : FluidTree κ) (h : Reachable E t) :
    ∀ (i : Nat) n, t.nodes[i]? = some n → IsInt n.visit_count := by
  induction h with
  | fresh =>
    intro i n hn
    cases i with
    | zero =>
      simp only [construct, List.getElem?_cons_zero, Option.some.injEq] at hn
      subst hn
      show IsInt 0
      decide
    | succ i => simp [construct] at hn
  | step t c _ _ ih =>
    intro i n hn
    by_cases hi : i < t.nodes.length
    · obtain ⟨n1, h1, _, _, h4, _⟩ := (run_frame E t c).2 i t.nodes[i]
        (List.getElem?_eq_getElem hi)
      have e : n = n1 := by rw [h1] at hn; exact (Option.some.inj hn).symm
      rw [e]
      exact h4 (ih i t.nodes[i] (List.getElem?_eq_getElem hi))
    · obtain ⟨_, _, _, _, h4⟩ := run_new_node E t c i n hn (by omega)
      rw [h4]
      show IsInt 0
      decide

theorem reachable_structure (E : Kernels κ) (t : FluidTree κ) (h : Reachable E t) :
    t.SizeOk → ∀ (i : Nat) n, t.nodes[i]? = some n →
      n.id = (i : Int) ∧ n.parent < (i : Int) ∧ IsInt n.parent := by
  induction h with
  | fresh =>
    intro _ i n hn
    cases i with
    | zero =>
      simp only [construct, List.getElem?_cons_zero, Option.some.injEq] at hn
      subst hn
      refine ⟨rfl, ?_, ?_⟩
      · show (-1 : Int) < ((0 : Nat) : Int)
        decide
      · show IsInt (-1)
        decide
    | succ i => simp [construct] at hn
  | step t c _ hw ih =>
    intro hsz i n hn
    have hlen := (run_frame E t c).1
    have hsz0 : t.SizeOk := by unfold SizeOk at *; omega
    by_cases hi : i < t.nodes.length
    · obtain ⟨n1, h1, h2, h3, _, _⟩ := (run_frame E t c).2 i t.nodes[i]
        (List.getElem?_eq_getElem hi)
      have e : n = n1 := by rw [h1] at hn; exact (Option.some.inj hn).symm
      obtain ⟨i1, i2, i3⟩ := ih hsz0 i t.nodes[i] (List.getElem?_eq_getElem hi)
      rw [e, h2, h3]
      exact ⟨i1, i2, i3⟩
    · obtain ⟨parent_id, hc, hi1, hp, hnode⟩ := run_new_node E t c i n hn (by omega)
      rw [int_of_size_t_small hsz0] at hp hnode
      subst hc
      rw [hnode, hi1]
      exact ⟨rfl, hp, hw⟩

/-- C14. A freshly constructed tree holds exactly one node, `{0, 0, 0.5, {}, -1}`.  In
every state reached from it by calls of the public operations, whether they return,
throw or fault, the node at position `i` has id `i` (as long as the node count is within
the range of `int`).  No call decreases the node count, and after any call every
position of the store before it still holds a node with the same id. -/
theorem ids_dense_and_stable (E : Kernels κ) :
    (construct E.ops).nodes = [⟨0, 0, E.ops.half, [], -1⟩] ∧
    (∀ t, Reachable E t → t.SizeOk →
      ∀ (i : Nat) n, t.nodes[i]? = some n → n.id = (i : Int)) ∧
    (∀ t (c : Call κ), Reachable E t →
      t.nodes.length ≤ (run E t c).2.nodes.length ∧
      ∀ (i : Nat) n, t.nodes[i]? = some n →
        ∃ n1, (run E t c).2.nodes[i]? = some n1 ∧ n1.id = n.id) := by
  refine ⟨rfl, ?_, ?_⟩
  · intro t hr hsz i n hn
    exact (reachable_structure E t hr hsz i n hn).1
  · intro t c _
    refine ⟨(run_frame E t c).1, ?_⟩
    intro i n hn
    obtain ⟨n1, h1, h2, _⟩ := (run_frame E t c).2 i n hn
    exact ⟨n1, h1, h2⟩

theorem ids_dense_and_stable_witness :
    Reachable ratKernels (run ratKernels (construct ratOps) (.create_node 0)).2 ∧
    (∀ (i : Nat) n,
      (run ratKernels (construct ratOps) (.create_node 0)).2.nodes[i]? = some n →
        n.id = (i : Int)) ∧
    ((construct ratOps).nodes.length ≤
        (run ratKernels (construct ratOps) (.create_node 0)).2.nodes.length ∧
      ∀ (i : Nat) n, (construct ratOps).nodes[i]? = some n →
        ∃ n1, (run ratKernels (construct ratOps) (.create_node 0)).2.nodes[i]? = some n1 ∧
          n1.id = n.id) := by
  have hr : Reachable ratKernels (run ratKernels (construct ratOps) (.create_node 0)).2 :=
    Reachable.step _ _ Reachable.fresh (by show IsInt 0; decide)
  have h1 : int_of_size_t 1 = 1 := by decide
  have hsz : SizeOk (run ratKernels (construct ratOps) (.create_node 0)).2 := by
    simp [SizeOk, run, create_node, construct, h1]
  exact ⟨hr, (ids_dense_and_stable ratKernels).2.1 _ hr hsz,
    (ids_dense_and_stable ratKernels).2.2 _ _ Reachable.fresh⟩

/-- The ascent loop on a store in which every parent is an `int` below the position of
its node visits no position twice: every visit count is as before or has been
incremented once, and the positions above the cursor are as before. -/
theorem backpropagate_loop_once (U : κ → κ → κ → κ) (reward lr : κ) :
    ∀ (fuel : Nat) (nodes : List (Node κ)) (curr : Int), nodes.length < 2147483648 →
      (∀ (i : Nat) n, nodes[i]? = some n → n.parent < (i : Int) ∧ IsInt n.parent) →
      IsInt curr →
      ∀ (i : Nat) n, nodes[i]? = some n →
        ∃ n1, (backpropagate_loop U reward lr fuel nodes curr).2[i]? = some n1 ∧
          (n1.visit_count = n.visit_count ∨
            n1.visit_count = int_wrap (n.visit_count + 1)) ∧
          (curr < (i : Int) → n1.visit_count = n.visit_count) := by
  intro fuel
  induction fuel with
  | zero =>
    intro nodes curr _ _ _ i n hn
    rw [backpropagate_loop]
    split <;> exact ⟨n, hn, Or.inl rfl, fun _ => rfl⟩
  | succ fuel ih =>
    intro nodes curr hsz hinv hint i n hn
    rw [backpropagate_loop]
    by_cases hc : curr = -1
    · rw [if_pos hc]
      exact ⟨n, hn, Or.inl rfl, fun _ => rfl⟩
    · rw [if_neg hc]
      cases hm : nodes[size_t_of_int curr]? with
      | none => exact ⟨n, hn, Or.inl rfl, fun _ => rfl⟩
      | some m =>
        simp only
        have hlt : size_t_of_int curr < nodes.length := (List.getElem?_eq_some_iff.mp hm).1
        have hnonneg : 0 ≤ curr := by
          by_contra hneg
          have := size_t_of_int_neg hint (by omega)
          omega
        have hidx : size_t_of_int curr = curr.toNat :=
          size_t_of_int_nonneg hnonneg (by unfold IsInt at hint; omega)
        obtain ⟨hp1, hp2⟩ := hinv _ _ hm
        rw [hidx] at hp1 hlt
        have hinv1 : ∀ (j : Nat) k,
            (nodes.set (size_t_of_int curr)
              ⟨m.id, int_wrap (m.visit_count + 1), U m.conductivity reward lr, m.children,
                m.parent⟩)[j]? = some k → k.parent < (j : Int) ∧ IsInt k.parent := by
          intro j k hk
          by_cases hj : j = size_t_of_int curr
          · subst hj
            rw [List.getElem?_set_self (by rw [hidx]; exact hlt)] at hk
            have e := (Option.some.inj hk).symm
            rw [e]
            exact hinv (size_t_of_int curr) m hm
          · rw [List.getElem?_set_ne (Ne.symm hj)] at hk
            exact hinv j k hk
        by_cases hi : i = size_t_of_int curr
        · subst hi
          have e : n = m := by rw [hm] at hn; exact (Option.some.inj hn).symm
          subst e
          obtain ⟨n1, k1, _, k3⟩ := ih _ n.parent (by rw [List.length_set]; exact hsz) hinv1
            hp2 (size_t_of_int curr) _ (List.getElem?_set_self (by rw [hidx]; exact hlt))
          have hk : n1.visit_count = int_wrap (n.visit_count + 1) :=
            k3 (by rw [hidx]; omega)
          exact ⟨n1, k1, Or.inr hk, fun h => by rw [hidx] at h; omega⟩
        · obtain ⟨n1, k1, k2, k3⟩ := ih _ m.parent (by rw [List.length_set]; exact hsz) hinv1
            hp2 i n (by rw [List.getElem?_set_ne (Ne.symm hi)]; exact hn)
          exact ⟨n1, k1, k2, fun h => k3 (by omega)⟩

/-- C15 (as amended). For a state reached from a fresh tree (the node count within the
range of `int`) and any single call on it (`create_node`, `add_child`, `select_leaf`,
`get_best_child`, `get_children` or `backpropagate`): a node the call creates has visit
count `0`; every node of the store before the call is still at its position, and its
visit count differs from the one before only when the call is a `backpropagate`; and
when the count before is below `INT_MAX = 2147483647`, the count after is not smaller, at
most one more, and non-negative if the count before was. -/
theorem visit_count_monotone (E : Kernels κ) (t : FluidTree κ) (c : Call κ)
    (hr : Reachable E t) (hsz : t.SizeOk) (hw : c.WellTyped) :
    (∀ (i : Nat) n1, (run E t c).2.nodes[i]? = some n1 → t.nodes.length ≤ i →
      n1.visit_count = 0) ∧
    (∀ (i : Nat) n, t.nodes[i]? = some n →
      ∃ n1, (run E t c).2.nodes[i]? = some n1 ∧
        (n1.visit_count ≠ n.visit_count → c.isBackpropagate = true) ∧
        (n.visit_count < 2147483647 →
          n.visit_count ≤ n1.visit_count ∧ n1.visit_count ≤ n.visit_count + 1 ∧
          (0 ≤ n.visit_count → 0 ≤ n1.visit_count))) := by
  constructor
  · intro i n1 hn hi
    obtain ⟨_, _, _, _, h4⟩ := run_new_node E t c i n1 hn hi
    rw [h4]
  · intro i n hn
    obtain ⟨n1, h1, _, _, _, h5⟩ := (run_frame E t c).2 i n hn
    have hint := reachable_visits_int E t hr i n hn
    have hinv := reachable_structure E t hr hsz
    have hchange : n1.visit_count ≠ n.visit_count → c.isBackpropagate = true := by
      intro hne
      cases hb : c.isBackpropagate with
      | true => rfl
      | false => exact absurd (h5 hb) hne
    refine ⟨n1, h1, hchange, ?_⟩
    intro hmax
    have hcases : n1.visit_count = n.visit_count ∨
        n1.visit_count = int_wrap (n.visit_count + 1) := by
      cases c with
      | backpropagate fuel leaf_node reward learning_rate =>
        obtain ⟨n2, k1, k2, _⟩ := backpropagate_loop_once E.fz_update_conductivity reward
          learning_rate fuel t.nodes leaf_node hsz (fun j k hk => (hinv j k hk).2) hw i n hn
        have e : n1 = n2 := by
          have h1a : (backpropagate_loop E.fz_update_conductivity reward learning_rate fuel
              t.nodes leaf_node).2[i]? = some n1 := h1
          rw [k1] at h1a
          exact (Option.some.inj h1a).symm
        rw [e]
        exact k2
      | create_node parent_id => exact Or.inl (h5 rfl)
      | add_child parent_id child_id => exact Or.inl (h5 rfl)
      | select_leaf draws fuel start_node exploration => exact Or.inl (h5 rfl)
      | get_best_child node_id => exact Or.inl (h5 rfl)
      | get_children node_id out_buf max_len => exact Or.inl (h5 rfl)
    have hwrap : int_wrap (n.visit_count + 1) = n.visit_count + 1 :=
      int_wrap_succ ⟨hint.1, hmax⟩
    rw [hwrap] at hcases
    rcases hcases with h | h <;> rw [h] <;> refine ⟨by omega, by omega, fun _ => by omega⟩

theorem visit_count_monotone_witness :
    (∃ n1, (run ratKernels (construct ratOps) (.backpropagate 1 0 1 (1 / 10))).2.nodes[0]? =
        some n1 ∧
      (n1.visit_count ≠ 0 → (Call.backpropagate 1 0 (1 : ℚ) (1 / 10)).isBackpropagate = true) ∧
      0 ≤ n1.visit_count ∧ n1.visit_count ≤ 0 + 1) ∧
    (∀ n1, (run ratKernels (construct ratOps) (.create_node 0)).2.nodes[1]? = some n1 →
      n1.visit_count = 0) := by
  constructor
  · obtain ⟨n1, h1, h2, h3⟩ :=
      (visit_count_monotone ratKernels (construct ratOps) (.backpropagate 1 0 1 (1 / 10))
        Reachable.fresh (by decide) (by show IsInt 0; decide)).2 0 ⟨0, 0, 1 / 2, [], -1⟩ rfl
    exact ⟨n1, h1, h2, (h3 (by decide)).1, (h3 (by decide)).2.1⟩
  · intro n1 hn
    exact (visit_count_monotone ratKernels (construct ratOps) (.create_node 0)
      Reachable.fresh (by decide) (by show IsInt 0; decide)).1 1 n1 hn (by decide)

theorem run_counting_tree (k : Nat) (hk : k < 2147483647) :
    run ratKernels (counting_tree k) (.backpropagate 1 0 0 0) =
      (.ok (), counting_tree (k + 1)) := by
  have h0 : size_t_of_int 0 = 0 := by decide
  have hw : int_wrap ((k : Int) + 1) = ((k + 1 : Nat) : Int) := by
    rw [int_wrap_succ ⟨by omega, by omega⟩]
    push_cast
    rfl
  have hs : smoothing (1 / 2) 0 0 = 1 / 2 := by simp [smoothing]
  simp only [run, backpropagate, counting_tree, ratKernels]
  rw [backpropagate_loop, if_neg (by decide), h0]
  simp only [List.getElem?_cons_zero, hw, hs, List.set_cons_zero]
  rw [backpropagate_loop, if_pos rfl]

theorem reachable_counting_tree :
    ∀ k : Nat, k ≤ 2147483647 → ReachableOk ratKernels (counting_tree k) := by
  intro k
  induction k with
  | zero => intro _; exact ReachableOk.fresh
  | succ k ih =>
    intro hk
    have hstep := run_counting_tree k (by omega)
    have h := ReachableOk.step (counting_tree k) (.backpropagate 1 0 0 0) (ih (by omega))
      (by show IsInt 0; decide) (by rw [hstep])
    rw [hstep] at h
    exact h

theorem ReachableOk.reachable (E : Kernels κ) (t : FluidTree κ) (h : ReachableOk E t) :
    Reachable E t := by
  induction h with
  | fresh => exact Reachable.fresh
  | step t c _ hw _ ih => exact Reachable.step t c ih hw

/-- C15 as stated fails on the code.  The one-node tree whose root counter stands at
`INT_MAX = 2147483647` is reached from a fresh tree by `2147483647` calls of
`backpropagate(0, 0, 0)`, each returning normally; one more such call returns normally
and leaves the counter at `-2147483648`, which is negative and smaller than before. -/
theorem visit_count_wraps_negative :
    ReachableOk ratKernels saturated_tree ∧ Reachable ratKernels saturated_tree ∧
    saturated_tree.nodes[0]? = some ⟨0, 2147483647, 1 / 2, [], -1⟩ ∧
    (run ratKernels saturated_tree (.backpropagate 1 0 0 0)).1 = .ok () ∧
    ∃ n1, (run ratKernels saturated_tree (.backpropagate 1 0 0 0)).2.nodes[0]? = some n1 ∧
      n1.visit_count = -2147483648 ∧ n1.visit_count < 0 ∧ n1.visit_count < 2147483647 := by
  have hsat : counting_tree 2147483647 = saturated_tree := rfl
  have hreach : ReachableOk ratKernels saturated_tree := by
    rw [← hsat]
    exact reachable_counting_tree 2147483647 (le_refl _)
  have h0 : size_t_of_int 0 = 0 := by decide
  have hw : int_wrap (2147483647 + 1) = -2147483648 := by decide
  have hs : smoothing (1 / 2) 0 0 = 1 / 2 := by simp [smoothing]
  have hrun : run ratKernels saturated_tree (.backpropagate 1 0 0 0) =
      (.ok (), ⟨[⟨0, -2147483648, 1 / 2, [], -1⟩]⟩) := by
    simp only [run, backpropagate, saturated_tree, ratKernels]
    rw [backpropagate_loop, if_neg (by decide), h0]
    simp only [List.getElem?_cons_zero, hw, hs, List.set_cons_zero]
    rw [backpropagate_loop, if_pos rfl]
  refine ⟨hreach, ReachableOk.reachable _ _ hreach, rfl, by rw [hrun], ?_⟩
  rw [hrun]
  exact ⟨_, rfl, rfl, by decide, by decide⟩

/-! ## The parent chain descends -/

/-- An entry of a children list after a call was in the list at that position before the
call, or is a valid id that `add_child` has just appended. -/
theorem run_children (E : Kernels κ) (t : FluidTree κ) (c : Call κ) (hw : c.WellTyped)
    (i : Nat) (n1 : Node κ) (ch : Int) (hn : (run E t c).2.nodes[i]? = some n1)
    (hch : ch ∈ n1.children) :
    (∃ n, t.nodes[i]? = some n ∧ ch ∈ n.children) ∨ t.Valid ch := by
  cases c with
  | create_node parent_id =>
    by_cases hi : i < t.nodes.length
    · obtain ⟨n2, h1, _⟩ := (run_frame E t (.create_node parent_id)).2 i t.nodes[i]
        (List.getElem?_eq_getElem hi)
      simp only [run, create_node] at hn
      split at hn
      · exact Or.inl ⟨n1, hn, hch⟩
      · simp only [List.getElem?_append_left hi] at hn
        exact Or.inl ⟨n1, hn, hch⟩
    · obtain ⟨_, _, _, _, h4⟩ := run_new_node E t _ i n1 hn (by omega)
      rw [h4] at hch
      simp at hch
  | add_child parent_id child_id =>
    simp only [run, add_child] at hn
    split at hn
    · exact Or.inl ⟨n1, hn, hch⟩
    · next hg1 =>
      split at hn
      · exact Or.inl ⟨n1, hn, hch⟩
      · next hg2 =>
        cases hm : t.node? parent_id with
        | none =>
          rw [hm] at hn
          exact Or.inl ⟨n1, hn, hch⟩
        | some m =>
          rw [hm] at hn
          simp only at hn
          have hm1 : t.nodes[size_t_of_int parent_id]? = some m := hm
          have hlt : size_t_of_int parent_id < t.nodes.length :=
            (List.getElem?_eq_some_iff.mp hm1).1
          by_cases hi : i = size_t_of_int parent_id
          · subst hi
            rw [List.getElem?_set_self hlt] at hn
            have e := (Option.some.inj hn).symm
            rw [e] at hch
            simp only [List.mem_append, List.mem_singleton] at hch
            rcases hch with h | h
            · exact Or.inl ⟨m, hm1, h⟩
            · right
              subst h
              have hc : IsInt ch := hw.2
              unfold IsInt at hc
              have h0 : 0 ≤ ch := by omega
              have hidx := size_t_of_int_nonneg h0 (by omega)
              unfold Valid
              omega
          · rw [List.getElem?_set_ne (Ne.symm hi)] at hn
            exact Or.inl ⟨n1, hn, hch⟩
  | select_leaf draws fuel start_node exploration => exact Or.inl ⟨n1, hn, hch⟩
  | backpropagate fuel leaf_node reward learning_rate =>
    obtain ⟨r1, r2⟩ :=
      backpropagate_loop_frame E.fz_update_conductivity reward learning_rate fuel t.nodes
        leaf_node
    simp only [run, backpropagate] at hn
    have hi : i < t.nodes.length := by
      have := (List.getElem?_eq_some_iff.mp hn).1
      omega
    obtain ⟨n2, h1, _, _, h4, _⟩ := r2 i t.nodes[i] (List.getElem?_eq_getElem hi)
    have e : n1 = n2 := by rw [h1] at hn; exact (Option.some.inj hn).symm
    refine Or.inl ⟨t.nodes[i], List.getElem?_eq_getElem hi, ?_⟩
    rw [← h4, ← e]
    exact hch
  | get_best_child node_id => exact Or.inl ⟨n1, hn, hch⟩
  | get_children node_id out_buf max_len => exact Or.inl ⟨n1, hn, hch⟩

/-- The part of reference validity that holds in every reachable state: every entry of
every children list is the id of an existing node. -/
theorem reachable_children_valid (E : Kernels κ) (t : FluidTree κ) (h : Reachable E t) :
    ∀ (i : Nat) n, t.nodes[i]? = some n → ∀ ch ∈ n.children, t.Valid ch := by
  induction h with
  | fresh =>
    intro i n hn ch hch
    cases i with
    | zero =>
      simp only [construct, List.getElem?_cons_zero, Option.some.injEq] at hn
      subst hn
      simp at hch
    | succ i => simp [construct] at hn
  | step t c _ hw ih =>
    intro i n hn ch hch
    have hlen := (run_frame E t c).1
    have hold : t.Valid ch → (run E t c).2.Valid ch := by
      intro hv
      unfold Valid at *
      omega
    rcases run_children E t c hw i n ch hn hch with ⟨n0, h0, hmem⟩ | hv
    · exact hold (ih i n0 h0 ch hmem)
    · exact hold hv

/-- The part of the single-root invariant that holds in every reachable state: position
`0` holds the root, with id `0` and parent `-1`. -/
theorem reachable_root (E : Kernels κ) (t : FluidTree κ) (h : Reachable E t) :
    ∃ n, t.nodes[0]? = some n ∧ n.id = 0 ∧ n.parent = -1 := by
  induction h with
  | fresh => exact ⟨_, rfl, rfl, rfl⟩
  | step t c _ _ ih =>
    obtain ⟨n, h0, h1, h2⟩ := ih
    obtain ⟨n1, k1, k2, k3, _⟩ := (run_frame E t c).2 0 n h0
    exact ⟨n1, k1, by rw [k2, h1], by rw [k3, h2]⟩

/-! ## Where the missing bounds checks show -/

theorem run_create_node_negative (E : Kernels κ) (parent_id : Int) (h : parent_id < 1) :
    run E (construct E.ops) (.create_node parent_id) =
      (.ok (), ⟨[⟨0, 0, E.ops.half, [], -1⟩, ⟨1, 0, E.ops.half, [], parent_id⟩]⟩) := by
  have h1 : int_of_size_t 1 = 1 := by decide
  simp only [run, create_node, construct, List.length_cons, List.length_nil, h1]
  rw [if_neg (by omega)]
  rfl

/-- C12 (the claim fails on the code). On a freshly constructed tree `create_node(-2)`
returns normally, so the state after it is reached through successful calls only, and its
node `1` has the parent `-2`, which is neither the sentinel `-1` nor the id of an
existing node. -/
theorem create_node_breaks_reference_validity (E : Kernels κ) :
    ReachableOk E (run E (construct E.ops) (.create_node (-2))).2 ∧
    ∃ n, (run E (construct E.ops) (.create_node (-2))).2.nodes[1]? = some n ∧
      n.parent ≠ -1 ∧ ¬ (run E (construct E.ops) (.create_node (-2))).2.Valid n.parent := by
  have hrun := run_create_node_negative E (-2) (by decide)
  refine ⟨ReachableOk.step _ _ ReachableOk.fresh (by show IsInt (-2); decide)
    (by rw [hrun]), ?_⟩
  rw [hrun]
  refine ⟨⟨1, 0, E.ops.half, [], -2⟩, rfl, ?_, ?_⟩
  · show (-2 : Int) ≠ -1
    decide
  · intro hv
    have h0 : (0 : Int) ≤ -2 := hv.1
    exact absurd h0 (by decide)

/-- C13 (the claim fails on the code). On a freshly constructed tree `create_node(-1)`
returns normally, so the state after it is reached through successful calls only, and it
holds two nodes whose parent is `-1`: the root at id `0` and the new node at id `1`. -/
theorem create_node_makes_second_root (E : Kernels κ) :
    ReachableOk E (run E (construct E.ops) (.create_node (-1))).2 ∧
    ∃ n0 n1, (run E (construct E.ops) (.create_node (-1))).2.nodes[0]? = some n0 ∧
      (run E (construct E.ops) (.create_node (-1))).2.nodes[1]? = some n1 ∧
      n0.parent = -1 ∧ n1.parent = -1 ∧ n0.id = 0 ∧ n1.id = 1 := by
  have hrun := run_create_node_negative E (-1) (by decide)
  refine ⟨ReachableOk.step _ _ ReachableOk.fresh (by show IsInt (-1); decide)
    (by rw [hrun]), ?_⟩
  rw [hrun]
  exact ⟨⟨0, 0, E.ops.half, [], -1⟩, ⟨1, 0, E.ops.half, [], -1⟩, rfl, rfl, rfl, rfl, rfl, rfl⟩

/-- C16 (the claim fails on the code). On a freshly constructed tree, a state reached by
no call at all, `backpropagate(1, reward, lr)` indexes the one-node store at `1`, and
`backpropagate(-5, reward, lr)` indexes it at `-5`: the loop tests `curr != -1` only and
then reads `nodes[curr]`. -/
theorem backpropagate_indexes_outside (E : Kernels κ) (reward lr : κ) (fuel : Nat) :
    ReachableOk E (construct E.ops) ∧
    (run E (construct E.ops) (.backpropagate (fuel + 1) 1 reward lr)).1 = .oob 1 ∧
    (run E (construct E.ops) (.backpropagate (fuel + 1) (-5) reward lr)).1 = .oob (-5) := by
  have h1 : size_t_of_int 1 = 1 := by decide
  have h5 : 1 ≤ size_t_of_int (-5) := by decide
  refine ⟨ReachableOk.fresh, ?_, ?_⟩
  · simp only [run, backpropagate, construct]
    rw [backpropagate_loop, if_neg (by decide), h1]
    rfl
  · simp only [run, backpropagate, construct]
    rw [backpropagate_loop, if_neg (by decide), List.getElem?_eq_none (by simpa using h5)]

end FluidTree

end FluxZero
